import Mathlib

/-!
Verification of the state-mutation proposal engine of Docent
(src/StateGenerator.cpp): the six mutation operators
(ChangePhraseTranslation, PermutePhrases, LinearisePhrases, SwapPhrases,
MovePhrases, Resegment), the shared sentence-drawing preamble, and the
dispatcher loop.

The operators are embedded as pure functions over one sentence's phrase
segmentation, parameterised by the values of the random draws
(drawFromRange, drawFromGeometricDistribution, flipCoin).  The range of
each draw is carried as a hypothesis in the theorems, matching the
contracts of the Random source.  Iterators into a PhraseSegmentation are
embedded as positions (Nat); an iterator range [it1, it2) into list l is
the slice (l.drop pos1).take (pos2 - pos1).
-/

/-- An anchored phrase pair: a source-coverage bitmap (the set of covered
source positions) and a target-word sequence.  Translated from the use of
AnchoredPhrasePair in StateGenerator.cpp (words are opaque integers). -/
structure AnchoredPhrasePair where
  cov : Finset Nat
  tgt : List Nat
deriving DecidableEq

instance : Inhabited AnchoredPhrasePair := ⟨⟨∅, []⟩⟩

/-- Default pair used with List.getD when stating facts about elements. -/
def dAPP : AnchoredPhrasePair := ⟨∅, []⟩

/-- A phrase segmentation of one sentence: an ordered sequence of anchored
phrase pairs. -/
abbrev PhraseSegmentation := List AnchoredPhrasePair

/-- Modelled from the spec: the anchor of a pair is its minimum covered
source position (PhrasePair.h, which defines CompareAnchoredPhrasePairs,
is not among the sources; the spec says the ordering is by minimum
covered source position). -/
def minPos (a : AnchoredPhrasePair) : Nat := WithTop.untop' 0 a.cov.min

/-- Modelled from the spec: compareByAnchor, the strict left-to-right
order on anchored phrase pairs by minimum covered source position. -/
def compareByAnchor (a b : AnchoredPhrasePair) : Prop := minPos a < minPos b

instance : DecidableRel compareByAnchor := fun a b => Nat.decLt _ _

/-- The non-strict companion of compareByAnchor, used as the sorting
relation for std::sort with comparator CompareAnchoredPhrasePairs. -/
def leAnchor (a b : AnchoredPhrasePair) : Prop := minPos a ≤ minPos b

instance : DecidableRel leAnchor := fun a b => Nat.decLe _ _

instance : IsTotal AnchoredPhrasePair leAnchor := ⟨fun a b => Nat.le_total _ _⟩

instance : IsTrans AnchoredPhrasePair leAnchor := ⟨fun _ _ _ h h2 => Nat.le_trans h h2⟩

/-- One modification of a SearchStep: addModification(sentno, from, to,
from_it, to_it, newSlice).  mfrom/mto are the uint index fields; fromPos
and toPos are the positions of the two iterators into the current
segmentation; repl is the replacement slice. -/
structure Modification where
  mfrom : Nat
  mto : Nat
  fromPos : Nat
  toPos : Nat
  repl : PhraseSegmentation
deriving DecidableEq

/-- The slice of the current segmentation delimited by a modification's
iterator pair (the old slice that the modification replaces). -/
def oldSliceOf (sent : PhraseSegmentation) (m : Modification) : PhraseSegmentation :=
  (sent.drop m.fromPos).take (m.toPos - m.fromPos)

/-- Modelled from the spec: applying one modification replaces the
iterator range [fromPos, toPos) of the segmentation with the replacement
slice (the acceptor, DocumentState::applyModifications, is not among the
sources; the spec says each modification replaces the delimited range). -/
def applyOne (seg : PhraseSegmentation) (m : Modification) : PhraseSegmentation :=
  seg.take m.fromPos ++ m.repl ++ seg.drop m.toPos

/-- Insert a modification into a list kept in descending order of
fromPos. -/
def insMod (m : Modification) : List Modification → List Modification
  | [] => [m]
  | m2 :: rest => if m2.fromPos ≤ m.fromPos then m :: m2 :: rest else m2 :: insMod m rest

/-- Sort modifications by descending fromPos (insertion sort). -/
def sortMods (mods : List Modification) : List Modification :=
  mods.foldr insMod []

/-- Modelled from the spec: the acceptor applies all modifications of a
step atomically against the original segmentation.  Since the iterator
ranges of one step are pairwise disjoint, this equals applying them one
by one from the rightmost range to the leftmost. -/
def applyStep (seg : PhraseSegmentation) (mods : List Modification) : PhraseSegmentation :=
  (sortMods mods).foldl applyOne seg

/-- Applying a step to a document: all modifications of one step concern
one sentence. -/
def applyStepDoc (doc : List PhraseSegmentation) (sentno : Nat)
    (mods : List Modification) : List PhraseSegmentation :=
  doc.set sentno (applyStep (doc.getD sentno []) mods)

/-- Length of the longest common prefix of two lists (std::mismatch from
the front, stopping at either end). -/
def cpl : PhraseSegmentation → PhraseSegmentation → Nat
  | a :: as, b :: bs => if a = b then cpl as bs + 1 else 0
  | _, _ => 0

/-- Length of the longest common suffix of two lists (std::mismatch over
the reversed ranges). -/
def csl (s g : PhraseSegmentation) : Nat := cpl s.reverse g.reverse

/-- std::adjacent_find with predicate not2(CompareAnchoredPhrasePairs):
position of the first adjacent pair that is not strictly increasing by
anchor, or none if the list is monotonic. -/
def adjFind : PhraseSegmentation → Option Nat
  | a :: b :: rest => if compareByAnchor a b then (adjFind (b :: rest)).map (· + 1) else some 0
  | _ => none

/-- OR of the coverage bitmaps of a slice, accumulated left to right
(the std::for_each loop building the target coverage in Resegment). -/
def covUnion (l : PhraseSegmentation) : Finset Nat :=
  l.foldl (fun acc a => acc ∪ a.cov) ∅

/-- The multiset of source positions covered by a segmentation, counting
multiplicity: the sum of the per-pair coverage bitmaps viewed as
multisets. -/
def covM (l : PhraseSegmentation) : Multiset Nat :=
  (l.map (fun a => a.cov.val)).sum

/-- The multiset of per-pair source-coverage bitmaps of a segmentation. -/
def bitmaps (l : PhraseSegmentation) : Multiset (Finset Nat) :=
  (l.map AnchoredPhrasePair.cov : List (Finset Nat))

/-- The segmentation invariants stated by the spec's data model: the
pairs' source coverages are pairwise disjoint and each pair covers at
least one source position. -/
def ValidSeg (l : PhraseSegmentation) : Prop :=
  l.Pairwise (fun a b => Disjoint a.cov b.cov) ∧ ∀ a ∈ l, a.cov ≠ ∅

instance : DecidablePred ValidSeg := fun _ => instDecidableAnd

/-- ChangePhraseTranslationOperation::createSearchStep after the draws:
ph is the drawn phrase index, pp the pair proposed by
proposeAlternativeTranslation for the pair at ph. -/
def changePhraseTranslation (sent : PhraseSegmentation) (ph : Nat)
    (pp : AnchoredPhrasePair) : Option (List Modification) :=
  match (sent.drop ph).head? with
  | none => none
  | some old =>
    if old = pp then none
    else some [⟨ph, ph + 1, ph, ph + 1, [pp]⟩]

/-- PermutePhrasesOperation::createSearchStep after the preamble and the
draws: g is the geometric draw (nperm = g + 1), start the uniform draw,
pg the outcome of the random_shuffle retry loop.  The common prefix and
suffix of the slice and its shuffle are trimmed before emitting. -/
def permuteBody (sent : PhraseSegmentation) (g start : Nat)
    (pg : PhraseSegmentation) : Option (List Modification) :=
  let sl := (sent.drop start).take (g + 1)
  let p := cpl sl pg
  if sl.length ≤ p then none
  else
    let q := csl sl pg
    some [⟨start + p, start + p + (pg.length - q - p),
           start + p, start + (sl.length - q),
           (pg.drop p).take (pg.length - q - p)⟩]

/-- LinearisePhrasesOperation::createSearchStep after the preamble and
the draws.  adjacent_find moves the slice's begin iterator to the first
anchor-order violation; the tail from there is sorted by
CompareAnchoredPhrasePairs, and the emitted index fields are computed
from the drawn start without accounting for that shift (the iterator
fields do account for it). -/
def lineariseBody (sent : PhraseSegmentation) (g start : Nat) :
    Option (List Modification) :=
  let sl := (sent.drop start).take (g + 1)
  match adjFind sl with
  | none => none
  | some v =>
    let s2 := sl.drop v
    let pg := List.insertionSort leAnchor s2
    let p := cpl s2 pg
    let q := csl s2 pg
    some [⟨start + p, start + p + (pg.length - q - p),
           start + v + p, start + v + (s2.length - q),
           (pg.drop p).take (pg.length - q - p)⟩]

/-- The swap direction: right (true) if phrase1 = 0, left (false) if
phrase1 = size - 1, else the flipped coin. -/
def swapDir (size p1 : Nat) (coin : Bool) : Bool :=
  if p1 = 0 then true
  else if p1 = size - 1 then false
  else coin

/-- The second phrase of a swap: the single adjacent cell at the
boundary, else phrase1 plus or minus the geometric distance draw gd + 1. -/
def swapP2 (size p1 : Nat) (coin : Bool) (gd : Nat) : Nat :=
  if swapDir size p1 coin then
    if p1 = size - 2 then size - 1 else p1 + (gd + 1)
  else
    if p1 = 1 then 0 else p1 - (gd + 1)

/-- SwapPhrasesOperation::createSearchStep after the preamble and the
draws: two modifications against the original segmentation, replacing
each of the two single-phrase ranges with the content at the other. -/
def swapBody (sent : PhraseSegmentation) (p1 : Nat) (coin : Bool) (gd : Nat) :
    List Modification :=
  let p2 := swapP2 sent.length p1 coin gd
  [⟨p1, p1 + 1, p1, p1 + 1, (sent.drop p2).take 1⟩,
   ⟨p2, p2 + 1, p2, p2 + 1, (sent.drop p1).take 1⟩]

/-- The origin of a moved block: the uniform draw s0, incremented when
moving left. -/
def moveStart (dirc : Bool) (s0 : Nat) : Nat := if dirc then s0 else s0 + 1

/-- The destination of a moved block (an index into the original
segmentation, dest = size meaning the end). -/
def moveDest (size : Nat) (dirc : Bool) (block start gd : Nat) : Nat :=
  if dirc then
    if start + block = size - 1 then size else start + block + (gd + 1)
  else
    if start = 1 then 0 else start - (gd + 1)

/-- MovePhrasesOperation::createSearchStep after the preamble and the
draws: an insertion of the block at dest and a deletion of the block at
its origin, both against the original segmentation. -/
def moveBody (sent : PhraseSegmentation) (dirc : Bool) (gb s0 gd : Nat) :
    List Modification :=
  let block := gb + 1
  let start := moveStart dirc s0
  let dest := moveDest sent.length dirc block start gd
  [⟨dest, dest, dest, dest, (sent.drop start).take block⟩,
   ⟨start, start + block, start, start + block, []⟩]

/-- ResegmentOperation::createSearchStep after the draws: newseg is the
segmentation returned by proposeSegmentation for the OR of the slice's
coverages.  The end index field walks the new segmentation, while the
end iterator delimits the old slice. -/
def resegmentBody (sent : PhraseSegmentation) (g start : Nat)
    (newseg : PhraseSegmentation) : Option (List Modification) :=
  let sl := (sent.drop start).take (g + 1)
  let p := cpl sl newseg
  if sl.length ≤ p then none
  else
    let q := csl sl newseg
    some [⟨start + p, start + p + (newseg.length - q - p),
           start + p, start + (sl.length - q),
           (newseg.drop p).take (newseg.length - q - p)⟩]

/-- The common sentence-drawing preamble, with r remaining retries: draw
a sentence; if its segmentation has fewer than 2 phrases and retries
remain, draw again.  Returns (sentno, size, number of draws made so
far + 1).  k is the index of the next value of the draw stream. -/
def preambleGo (sizeOf draws : Nat → Nat) (k : Nat) : Nat → Nat × Nat × Nat
  | 0 =>
    let s := draws k
    (s, sizeOf s, k + 1)
  | r + 1 =>
    let s := draws k
    let sz := sizeOf s
    if sz < 2 then preambleGo sizeOf draws (k + 1) r else (s, sz, k + 1)

/-- The common preamble of PermutePhrases, LinearisePhrases, SwapPhrases
and MovePhrases: the do-while loop guarded by `size < 2 && trials++ < 10`,
which allows ten retries after the first draw.  Returns the drawn
sentence, its size, and the number of drawSentence calls made. -/
def preamble (sizeOf draws : Nat → Nat) : Nat × Nat × Nat :=
  preambleGo sizeOf draws 0 10

/-- The preamble run against a document's segmentations. -/
def opPreamble (sentences : List PhraseSegmentation) (draws : Nat → Nat) :
    Nat × Nat × Nat :=
  preamble (fun i => (sentences.getD i []).length) draws

/-- PermutePhrasesOperation::createSearchStep including the preamble. -/
def permuteOp (sentences : List PhraseSegmentation) (draws : Nat → Nat)
    (g start : Nat) (pg : PhraseSegmentation) : Option (List Modification) :=
  let r := opPreamble sentences draws
  if r.2.1 < 2 then none else permuteBody (sentences.getD r.1 []) g start pg

/-- LinearisePhrasesOperation::createSearchStep including the preamble. -/
def lineariseOp (sentences : List PhraseSegmentation) (draws : Nat → Nat)
    (g start : Nat) : Option (List Modification) :=
  let r := opPreamble sentences draws
  if r.2.1 < 2 then none else lineariseBody (sentences.getD r.1 []) g start

/-- SwapPhrasesOperation::createSearchStep including the preamble. -/
def swapOp (sentences : List PhraseSegmentation) (draws : Nat → Nat)
    (p1 : Nat) (coin : Bool) (gd : Nat) : Option (List Modification) :=
  let r := opPreamble sentences draws
  if r.2.1 < 2 then none else some (swapBody (sentences.getD r.1 []) p1 coin gd)

/-- MovePhrasesOperation::createSearchStep including the preamble. -/
def moveOp (sentences : List PhraseSegmentation) (draws : Nat → Nat)
    (dirc : Bool) (gb s0 gd : Nat) : Option (List Modification) :=
  let r := opPreamble sentences draws
  if r.2.1 < 2 then none else some (moveBody (sentences.getD r.1 []) dirc gb s0 gd)

/-- A step that some operator can emit for the given sentence, for some
admissible values of the random draws.  The draw-range hypotheses are the
contracts of the Random source (drawFromRange(n) lies in [0, n),
drawFromGeometricDistribution(decay, max) lies in [0, max]); hcov and the
newseg hypotheses are the PhrasePairCollection contracts stated by the
spec (proposeAlternativeTranslation covers the same source span;
proposeSegmentation(coverage) returns pairwise disjoint, nonempty pairs
covering exactly the requested coverage). -/
inductive Emits : PhraseSegmentation → List Modification → Prop
  | change (sent : PhraseSegmentation) (ph : Nat) (pp : AnchoredPhrasePair)
      (mods : List Modification)
      (hph : ph < sent.length)
      (hcov : pp.cov = (sent.getD ph dAPP).cov)
      (hstep : changePhraseTranslation sent ph pp = some mods) :
      Emits sent mods
  | permute (sent : PhraseSegmentation) (g start : Nat) (pg : PhraseSegmentation)
      (mods : List Modification)
      (hsz : 2 ≤ sent.length)
      (hg : g + 1 ≤ sent.length)
      (hstart : start + (g + 1) ≤ sent.length)
      (hperm : ((sent.drop start).take (g + 1)).Perm pg)
      (hstep : permuteBody sent g start pg = some mods) :
      Emits sent mods
  | linearise (sent : PhraseSegmentation) (g start : Nat) (mods : List Modification)
      (hsz : 2 ≤ sent.length)
      (hg : g + 1 ≤ sent.length)
      (hstart : start + (g + 1) ≤ sent.length)
      (hstep : lineariseBody sent g start = some mods) :
      Emits sent mods
  | swap (sent : PhraseSegmentation) (p1 : Nat) (coin : Bool) (gd : Nat)
      (hsz : 2 ≤ sent.length)
      (hp1 : p1 < sent.length)
      (hgd : gd + 1 ≤ if swapDir sent.length p1 coin then sent.length - p1 - 1 else p1) :
      Emits sent (swapBody sent p1 coin gd)
  | move (sent : PhraseSegmentation) (dirc : Bool) (gb s0 gd : Nat)
      (hsz : 2 ≤ sent.length)
      (hgb : gb + 1 ≤ sent.length - 1)
      (hs0 : s0 + (gb + 1) < sent.length)
      (hgd : if dirc
        then moveStart dirc s0 + (gb + 1) = sent.length - 1 ∨
             moveStart dirc s0 + (gb + 1) + (gd + 1) ≤ sent.length
        else moveStart dirc s0 = 1 ∨ gd + 1 ≤ moveStart dirc s0) :
      Emits sent (moveBody sent dirc gb s0 gd)
  | reseg (sent : PhraseSegmentation) (g start : Nat) (newseg : PhraseSegmentation)
      (mods : List Modification)
      (hg : g + 1 ≤ sent.length)
      (hstart : start + (g + 1) ≤ sent.length)
      (hdisj : newseg.Pairwise (fun a b => Disjoint a.cov b.cov))
      (hne : ∀ a ∈ newseg, a.cov ≠ ∅)
      (hcover : covUnion newseg = covUnion ((sent.drop start).take (g + 1)))
      (hstep : resegmentBody sent g start newseg = some mods) :
      Emits sent mods

/-! ### Common prefix and suffix lengths -/

theorem cpl_le_left : ∀ s g : PhraseSegmentation, cpl s g ≤ s.length
  | [], g => by simp [cpl]
  | _ :: _, [] => by simp [cpl]
  | a :: as, b :: bs => by
    by_cases h : a = b
    · simpa [cpl, h] using cpl_le_left as bs
    · simp [cpl, h]

theorem cpl_le_right : ∀ s g : PhraseSegmentation, cpl s g ≤ g.length
  | [], g => by simp [cpl]
  | _ :: _, [] => by simp [cpl]
  | a :: as, b :: bs => by
    by_cases h : a = b
    · simpa [cpl, h] using cpl_le_right as bs
    · simp [cpl, h]

theorem cpl_comm : ∀ s g : PhraseSegmentation, cpl s g = cpl g s
  | [], g => by cases g <;> simp [cpl]
  | _ :: _, [] => by simp [cpl]
  | a :: as, b :: bs => by
    by_cases h : a = b
    · simp only [cpl]
      rw [if_pos h, if_pos h.symm, cpl_comm as bs]
    · simp only [cpl]
      rw [if_neg h, if_neg (fun hh => h hh.symm)]

theorem cpl_self : ∀ s : PhraseSegmentation, cpl s s = s.length
  | [] => by simp [cpl]
  | a :: as => by simp [cpl, cpl_self as]

theorem cpl_take_eq : ∀ s g : PhraseSegmentation, s.take (cpl s g) = g.take (cpl s g)
  | [], g => by simp [cpl]
  | _ :: _, [] => by simp [cpl]
  | a :: as, b :: bs => by
    by_cases h : a = b
    · simp [cpl, h, List.take_succ_cons, cpl_take_eq as bs]
    · simp [cpl, h]

theorem cpl_get_ne : ∀ s g : PhraseSegmentation, cpl s g < s.length → cpl s g < g.length →
    s[cpl s g]? ≠ g[cpl s g]?
  | [], g => by simp [cpl]
  | _ :: _, [] => by simp [cpl]
  | a :: as, b :: bs => by
    intro h1 h2
    by_cases h : a = b
    · have ih := cpl_get_ne as bs (by simpa [cpl, h] using h1) (by simpa [cpl, h] using h2)
      simpa [cpl, h, List.getElem?_cons_succ] using ih
    · simpa [cpl, h, List.getElem?_cons_zero] using h

theorem cpl_lt_of_ne (s g : PhraseSegmentation) (hlen : s.length = g.length)
    (hne : s ≠ g) : cpl s g < s.length := by
  rcases Nat.lt_or_ge (cpl s g) s.length with h | h
  · exact h
  · exfalso
    apply hne
    have hs : s.take (cpl s g) = s := List.take_of_length_le h
    have hg : g.take (cpl s g) = g := List.take_of_length_le (by rw [← hlen]; exact h)
    rw [← hs, cpl_take_eq s g, hg]

theorem csl_le_left (s g : PhraseSegmentation) : csl s g ≤ s.length := by
  simpa using cpl_le_left s.reverse g.reverse

theorem csl_le_right (s g : PhraseSegmentation) : csl s g ≤ g.length := by
  simpa using cpl_le_right s.reverse g.reverse

theorem csl_drop_eq (s g : PhraseSegmentation) :
    s.drop (s.length - csl s g) = g.drop (g.length - csl s g) := by
  have h := cpl_take_eq s.reverse g.reverse
  have hs : (s.reverse.take (csl s g)).reverse = s.drop (s.length - csl s g) := by
    rw [List.reverse_take, List.reverse_reverse, List.length_reverse]
  have hg : (g.reverse.take (csl s g)).reverse = g.drop (g.length - csl s g) := by
    rw [List.reverse_take, List.reverse_reverse, List.length_reverse]
  rw [← hs, ← hg, csl, h]

theorem csl_get_ne (s g : PhraseSegmentation) (h1 : csl s g < s.length)
    (h2 : csl s g < g.length) :
    s[s.length - 1 - csl s g]? ≠ g[g.length - 1 - csl s g]? := by
  have h := cpl_get_ne s.reverse g.reverse (by simpa using h1) (by simpa using h2)
  rw [List.getElem?_reverse (by simpa using h1), List.getElem?_reverse (by simpa using h2)] at h
  simpa [csl] using h

theorem cpl_add_csl_le (s g : PhraseSegmentation) (hlen : s.length = g.length)
    (h : cpl s g < s.length) : cpl s g + csl s g ≤ s.length := by
  by_contra hc
  push_neg at hc
  have hq : csl s g ≤ s.length := csl_le_left s g
  have hdrop := csl_drop_eq s g
  have heq : s[cpl s g]? = g[cpl s g]? := by
    have h1 : s[cpl s g]? = (s.drop (s.length - csl s g))[cpl s g - (s.length - csl s g)]? := by
      rw [List.getElem?_drop]
      congr 1
      omega
    have h2 : g[cpl s g]? = (g.drop (g.length - csl s g))[cpl s g - (s.length - csl s g)]? := by
      rw [List.getElem?_drop]
      congr 1
      omega
    rw [h1, h2, hdrop]
  exact cpl_get_ne s g h (hlen ▸ h) heq

/-! ### Slice utilities -/

theorem slice_length (l : PhraseSegmentation) (i k : Nat) (h : i + k ≤ l.length) :
    ((l.drop i).take k).length = k := by
  simp
  omega

theorem slice_head (l : PhraseSegmentation) (i k : Nat) (hk : 1 ≤ k) :
    ((l.drop i).take k).head? = l[i]? := by
  rw [List.head?_take, if_neg (by omega), List.head?_drop]

theorem slice_getElem? (l : PhraseSegmentation) (i k j : Nat) (hj : j < k) :
    ((l.drop i).take k)[j]? = l[i + j]? := by
  rw [List.getElem?_take, if_pos hj, List.getElem?_drop]

theorem slice_getLast? (l : PhraseSegmentation) (i k : Nat) (hik : i + k ≤ l.length)
    (hk : 1 ≤ k) : ((l.drop i).take k).getLast? = l[i + k - 1]? := by
  rw [List.getLast?_eq_getElem?, slice_length l i k hik, slice_getElem? l i k (k - 1) (by omega)]
  congr 1
  omega

theorem slice_one (l : PhraseSegmentation) (i : Nat) (hi : i < l.length) :
    (l.drop i).take 1 = [l.getD i dAPP] := by
  rw [List.drop_eq_getElem_cons hi, List.getD_eq_getElem?_getD, List.getElem?_eq_getElem hi]
  rfl

theorem eq_take_getD_drop (l : PhraseSegmentation) (i : Nat) (hi : i < l.length) :
    l = l.take i ++ l.getD i dAPP :: l.drop (i + 1) := by
  conv_lhs => rw [← List.take_append_drop i l]
  rw [List.drop_eq_getElem_cons hi, List.getD_eq_getElem?_getD, List.getElem?_eq_getElem hi]
  rfl

theorem drop_slice_split (l : PhraseSegmentation) (start n j : Nat) (hj : j ≤ n)
    (hn : start + n ≤ l.length) :
    l.drop (start + j) = ((l.drop start).take n).drop j ++ l.drop (start + n) := by
  rw [List.drop_take, List.drop_drop]
  conv_lhs => rw [← List.take_append_drop (n - j) (l.drop (start + j))]
  rw [List.drop_drop]
  congr 2
  omega

/-! ### Coverage multisets and unions -/

theorem covM_nil : covM [] = 0 := rfl

theorem covM_cons (a : AnchoredPhrasePair) (l : PhraseSegmentation) :
    covM (a :: l) = a.cov.val + covM l := by
  simp [covM]

theorem covM_append (l1 l2 : PhraseSegmentation) :
    covM (l1 ++ l2) = covM l1 + covM l2 := by
  simp [covM]

theorem covM_perm {l1 l2 : PhraseSegmentation} (h : l1.Perm l2) : covM l1 = covM l2 :=
  List.Perm.sum_eq (h.map _)

theorem covM_eq_zero (l : PhraseSegmentation) (hne : ∀ a ∈ l, a.cov ≠ ∅)
    (h : covM l = 0) : l = [] := by
  cases l with
  | nil => rfl
  | cons a l =>
    rw [covM_cons] at h
    have hcard : Multiset.card a.cov.val = 0 := by
      have h2 := congrArg Multiset.card h
      rw [Multiset.card_add, Multiset.card_zero] at h2
      omega
    exact absurd (Finset.val_eq_zero.mp (Multiset.card_eq_zero.mp hcard))
      (hne a (List.mem_cons_self a l))

theorem covUnion_foldl_acc : ∀ (l : PhraseSegmentation) (acc : Finset Nat),
    l.foldl (fun acc a => acc ∪ a.cov) acc = acc ∪ covUnion l
  | [], acc => by simp [covUnion]
  | a :: l, acc => by
    rw [covUnion, List.foldl_cons, List.foldl_cons, covUnion_foldl_acc l (acc ∪ a.cov),
      covUnion_foldl_acc l (∅ ∪ a.cov), Finset.empty_union, Finset.union_assoc]

theorem covUnion_cons (a : AnchoredPhrasePair) (l : PhraseSegmentation) :
    covUnion (a :: l) = a.cov ∪ covUnion l := by
  rw [covUnion, List.foldl_cons, covUnion_foldl_acc l (∅ ∪ a.cov), Finset.empty_union]

theorem disjoint_covUnion (a : AnchoredPhrasePair) :
    ∀ l : PhraseSegmentation, (∀ b ∈ l, Disjoint a.cov b.cov) → Disjoint a.cov (covUnion l)
  | [], _ => by simp [covUnion]
  | b :: l, h => by
    rw [covUnion_cons, Finset.disjoint_union_right]
    exact ⟨h b (List.mem_cons_self b l),
      disjoint_covUnion a l fun c hc => h c (List.mem_cons_of_mem b hc)⟩

theorem covM_eq_covUnion_val : ∀ l : PhraseSegmentation,
    l.Pairwise (fun a b => Disjoint a.cov b.cov) → covM l = (covUnion l).val
  | [], _ => rfl
  | a :: l, h => by
    rw [List.pairwise_cons] at h
    have hd : Disjoint a.cov (covUnion l) := disjoint_covUnion a l h.1
    rw [covM_cons, covUnion_cons, ← Finset.disjUnion_eq_union a.cov (covUnion l) hd,
      covM_eq_covUnion_val l h.2]
    rfl

/-! ### Evaluating applyStep on the emitted steps -/

theorem applyStep_singleton (seg : PhraseSegmentation) (m : Modification) :
    applyStep seg [m] = applyOne seg m := rfl

theorem applyStep_pair_le (seg : PhraseSegmentation) (m1 m2 : Modification)
    (h : m2.fromPos ≤ m1.fromPos) :
    applyStep seg [m1, m2] = applyOne (applyOne seg m1) m2 := by
  simp [applyStep, sortMods, insMod, if_pos h]

theorem applyStep_pair_gt (seg : PhraseSegmentation) (m1 m2 : Modification)
    (h : ¬ m2.fromPos ≤ m1.fromPos) :
    applyStep seg [m1, m2] = applyOne (applyOne seg m2) m1 := by
  simp [applyStep, sortMods, insMod, if_neg h]

/-! ### Anchors of valid segmentations -/

theorem getD_of_lt (l : PhraseSegmentation) (i : Nat) (h : i < l.length) :
    l.getD i dAPP = l[i] := by
  rw [List.getD_eq_getElem?_getD, List.getElem?_eq_getElem h]
  rfl

theorem minPos_mem (a : AnchoredPhrasePair) (h : a.cov ≠ ∅) : minPos a ∈ a.cov := by
  obtain ⟨b, hb⟩ := Finset.min_of_nonempty (Finset.nonempty_iff_ne_empty.mpr h)
  have hmb : minPos a = b := by rw [minPos, hb]; rfl
  rw [hmb]
  exact Finset.mem_of_min hb

theorem minPos_ne_of_disjoint (a b : AnchoredPhrasePair) (ha : a.cov ≠ ∅)
    (hb : b.cov ≠ ∅) (hd : Disjoint a.cov b.cov) : minPos a ≠ minPos b := by
  intro he
  exact Finset.disjoint_left.mp hd (minPos_mem a ha) (he ▸ minPos_mem b hb)

theorem validSeg_nodup {l : PhraseSegmentation} (h : ValidSeg l) : l.Nodup := by
  refine List.Pairwise.imp_of_mem ?_ h.1
  intro a b ha _ hd he
  apply h.2 a ha
  have : Disjoint a.cov a.cov := he ▸ hd
  simpa using disjoint_self.mp this

theorem validSeg_minPos_pairwise {l : PhraseSegmentation} (h : ValidSeg l) :
    l.Pairwise (fun a b => minPos a ≠ minPos b) := by
  refine List.Pairwise.imp_of_mem ?_ h.1
  intro a b ha hb hd
  exact minPos_ne_of_disjoint a b (h.2 a ha) (h.2 b hb) hd

theorem validSeg_getElem_ne {l : PhraseSegmentation} (h : ValidSeg l) (i j : Nat)
    (hi : i < l.length) (hj : j < l.length) (hij : i ≠ j) : l[i] ≠ l[j] := by
  intro he
  exact hij (((validSeg_nodup h).getElem_inj_iff).mp he)

/-! ### Multiset helpers for the no-overshoot argument -/

theorem multiset_add_eq_zero {x y : Multiset Nat} (h : x + y = 0) : x = 0 ∧ y = 0 := by
  have hc := congrArg Multiset.card h
  rw [Multiset.card_add, Multiset.card_zero] at hc
  exact ⟨Multiset.card_eq_zero.mp (by omega), Multiset.card_eq_zero.mp (by omega)⟩

theorem covM_take_drop (l : PhraseSegmentation) (k : Nat) :
    covM l = covM (l.take k) + covM (l.drop k) := by
  rw [← covM_append, List.take_append_drop]

theorem three_split (l : PhraseSegmentation) (i j : Nat) (hij : i ≤ j) :
    l = l.take i ++ (l.drop i).take (j - i) ++ l.drop j := by
  have h1 : l.take j = l.take i ++ (l.drop i).take (j - i) := by
    conv_lhs => rw [show j = i + (j - i) by omega]
    exact List.take_add l i (j - i)
  calc l = l.take j ++ l.drop j := (List.take_append_drop j l).symm
    _ = l.take i ++ (l.drop i).take (j - i) ++ l.drop j := by rw [h1]

theorem csl_comm (s g : PhraseSegmentation) : csl s g = csl g s :=
  cpl_comm s.reverse g.reverse

theorem covM_drop_cancel (s g : PhraseSegmentation) (p : Nat)
    (hsum : covM s = covM g) (htake : s.take p = g.take p) :
    covM (s.drop p) = covM (g.drop p) := by
  rw [covM_take_drop s p, covM_take_drop g p, htake] at hsum
  exact add_left_cancel hsum

theorem covM_slice_nil (l : PhraseSegmentation) (t : PhraseSegmentation)
    (hsub : ∀ a ∈ t, a ∈ l) (hl : ∀ a ∈ l, a.cov ≠ ∅) (h : covM t = 0) : t = [] :=
  covM_eq_zero t (fun a ha => hl a (hsub a ha)) h

theorem no_overshoot_aux (s g : PhraseSegmentation)
    (hsum : covM s = covM g)
    (hg : ∀ a ∈ g, a.cov ≠ ∅)
    (hp : cpl s g < s.length) (hpm : cpl s g < g.length)
    (hnm : s.length ≤ g.length) :
    cpl s g + csl s g ≤ s.length := by
  by_contra hov
  push_neg at hov
  have hqn : csl s g ≤ s.length := csl_le_left s g
  have hT := csl_drop_eq s g
  have hsdrop : s.drop (cpl s g)
      = (g.drop (g.length - csl s g)).drop (cpl s g - (s.length - csl s g)) := by
    rw [← hT, List.drop_drop]
    congr 1
    omega
  rcases Nat.eq_or_lt_of_le hnm with hm | hm
  · -- equal lengths: the mismatch position lies inside the common suffix
    have heq : s[cpl s g]? = g[cpl s g]? := by
      have h1 : s[cpl s g]? = (s.drop (s.length - csl s g))[cpl s g - (s.length - csl s g)]? := by
        rw [List.getElem?_drop]
        congr 1
        omega
      have h2 : g[cpl s g]? = (g.drop (g.length - csl s g))[cpl s g - (s.length - csl s g)]? := by
        rw [List.getElem?_drop]
        congr 1
        omega
      rw [h1, h2, hT]
    exact cpl_get_ne s g hp hpm heq
  · -- the longer list contains a nonempty slice of empty coverage
    have htake := cpl_take_eq s g
    have hcancel := covM_drop_cancel s g (cpl s g) hsum htake
    have hsplit2 : g.drop (cpl s g)
        = (g.drop (cpl s g)).take (g.length - s.length) ++ s.drop (cpl s g) := by
      conv_lhs => rw [← List.take_append_drop (g.length - s.length) (g.drop (cpl s g))]
      rw [List.drop_drop, hsdrop, List.drop_drop]
      have harith : cpl s g + (g.length - s.length)
          = g.length - csl s g + (cpl s g - (s.length - csl s g)) := by omega
      rw [harith]
    have hkey : covM (s.drop (cpl s g))
        = covM ((g.drop (cpl s g)).take (g.length - s.length)) + covM (s.drop (cpl s g)) := by
      conv_lhs => rw [hcancel, hsplit2]
      rw [covM_append]
    have hzero := (self_eq_add_left).mp hkey
    have htnil : (g.drop (cpl s g)).take (g.length - s.length) = [] :=
      covM_slice_nil g _ (fun a ha => List.mem_of_mem_drop (List.mem_of_mem_take ha)) hg hzero
    have hlen2 := congrArg List.length htnil
    rw [List.length_take, List.length_drop] at hlen2
    simp only [List.length_nil] at hlen2
    omega

theorem no_overshoot (s g : PhraseSegmentation)
    (hsum : covM s = covM g)
    (hs : ∀ a ∈ s, a.cov ≠ ∅) (hg : ∀ a ∈ g, a.cov ≠ ∅)
    (hp : cpl s g < s.length) :
    cpl s g < g.length ∧ csl s g < s.length ∧ csl s g < g.length ∧
      cpl s g + csl s g ≤ s.length ∧ cpl s g + csl s g ≤ g.length := by
  have hpm : cpl s g < g.length := by
    by_contra hc
    push_neg at hc
    have hple : cpl s g = g.length := Nat.le_antisymm (cpl_le_right s g) hc
    have hgs : g = s.take (cpl s g) := by
      rw [cpl_take_eq s g, hple, List.take_length]
    have h0 : covM (s.drop (cpl s g)) = 0 := by
      have h2 := covM_take_drop s (cpl s g)
      rw [hsum] at h2
      conv_lhs at h2 => rw [hgs]
      exact ((self_eq_add_right).mp h2)
    have hnil := covM_slice_nil s _ (fun a ha => List.mem_of_mem_drop ha) hs h0
    have := congrArg List.length hnil
    rw [List.length_drop] at this
    simp only [List.length_nil] at this
    omega
  have hqn : csl s g < s.length := by
    by_contra hc
    push_neg at hc
    have hqle : csl s g = s.length := Nat.le_antisymm (csl_le_left s g) hc
    have hT := csl_drop_eq s g
    have hz : s.length - csl s g = 0 := by omega
    rw [hz, List.drop_zero] at hT
    have h0 : covM (g.take (g.length - csl s g)) = 0 := by
      have h2 := covM_take_drop g (g.length - csl s g)
      rw [← hsum] at h2
      conv_lhs at h2 => rw [hT]
      exact (self_eq_add_left).mp h2
    have hnil := covM_slice_nil g _ (fun a ha => List.mem_of_mem_take ha) hg h0
    have hlen := congrArg List.length hnil
    rw [List.length_take] at hlen
    simp only [List.length_nil] at hlen
    have hml : g.length - csl s g = 0 := by omega
    rw [hml, List.drop_zero] at hT
    rw [hT, cpl_self] at hp
    omega
  have hqm : csl s g < g.length := by
    by_contra hc
    push_neg at hc
    have hqle : csl s g = g.length := Nat.le_antisymm (csl_le_right s g) hc
    have hT := csl_drop_eq s g
    have hz : g.length - csl s g = 0 := by omega
    rw [hz, List.drop_zero] at hT
    have h0 : covM (s.take (s.length - csl s g)) = 0 := by
      have h2 := covM_take_drop s (s.length - csl s g)
      rw [hsum] at h2
      conv_lhs at h2 => rw [← hT]
      exact (self_eq_add_left).mp h2
    have hnil := covM_slice_nil s _ (fun a ha => List.mem_of_mem_take ha) hs h0
    have hlen := congrArg List.length hnil
    rw [List.length_take] at hlen
    simp only [List.length_nil] at hlen
    have hml : s.length - csl s g = 0 := by omega
    rw [hml, List.drop_zero] at hT
    rw [← hT, cpl_self] at hp
    omega
  rcases le_or_lt s.length g.length with hnm | hnm
  · have h4 := no_overshoot_aux s g hsum hg hp hpm hnm
    exact ⟨hpm, hqn, hqm, h4, Nat.le_trans h4 hnm⟩
  · have h4 := no_overshoot_aux g s hsum.symm hs
      (by rw [cpl_comm g s]; exact hpm) (by rw [cpl_comm g s]; exact hp)
      (Nat.le_of_lt hnm)
    rw [cpl_comm g s, csl_comm g s] at h4
    exact ⟨hpm, hqn, hqm, Nat.le_trans h4 (Nat.le_of_lt hnm), h4⟩

/-! ### Splicing a trimmed replacement back into the sentence -/

theorem seg_decomp (l : PhraseSegmentation) (start n : Nat) :
    l = l.take start ++ (l.drop start).take n ++ l.drop (start + n) := by
  conv_lhs => rw [← List.take_append_drop start l, ← List.take_append_drop n (l.drop start)]
  rw [List.drop_drop, List.append_assoc]

theorem splice_eq (sent : PhraseSegmentation) (start n p q : Nat) (g : PhraseSegmentation)
    (hn : start + n ≤ sent.length)
    (htake : ((sent.drop start).take n).take p = g.take p)
    (hdrop : ((sent.drop start).take n).drop (n - q) = g.drop (g.length - q))
    (hpq : p + q ≤ n) (hpq2 : p + q ≤ g.length) :
    sent.take (start + p) ++ (g.drop p).take (g.length - q - p) ++ sent.drop (start + (n - q))
      = sent.take start ++ g ++ sent.drop (start + n) := by
  have h1b : (sent.drop start).take p = g.take p := by
    rw [← htake, List.take_take, inf_eq_left.mpr (by omega)]
  have h1 : sent.take (start + p) = sent.take start ++ g.take p := by
    rw [List.take_add, h1b]
  have h2 : sent.drop (start + (n - q)) = g.drop (g.length - q) ++ sent.drop (start + n) := by
    rw [drop_slice_split sent start n (n - q) (by omega) hn, hdrop]
  rw [h1, h2]
  conv_rhs => rw [three_split g p (g.length - q) (by omega)]
  simp only [List.append_assoc]

/-! ### Inversion of the operator bodies -/

theorem changePhraseTranslation_some {sent : PhraseSegmentation} {ph : Nat}
    {pp : AnchoredPhrasePair} {mods : List Modification}
    (h : changePhraseTranslation sent ph pp = some mods) :
    ∃ old, (sent.drop ph).head? = some old ∧ old ≠ pp ∧
      mods = [⟨ph, ph + 1, ph, ph + 1, [pp]⟩] := by
  unfold changePhraseTranslation at h
  rcases hh : (sent.drop ph).head? with _ | old
  · rw [hh] at h
    exact absurd h (by simp)
  · rw [hh] at h
    dsimp only at h
    by_cases he : old = pp
    · rw [if_pos he] at h
      exact absurd h (by simp)
    · rw [if_neg he] at h
      exact ⟨old, rfl, he, (Option.some.inj h).symm⟩

theorem permuteBody_eq_some {sent : PhraseSegmentation} {g start : Nat}
    {pg : PhraseSegmentation} {p q : Nat}
    (hp : p = cpl ((sent.drop start).take (g + 1)) pg)
    (hq : q = csl ((sent.drop start).take (g + 1)) pg)
    (hc : p < ((sent.drop start).take (g + 1)).length) :
    permuteBody sent g start pg
      = some [⟨start + p, start + p + (pg.length - q - p), start + p,
               start + (((sent.drop start).take (g + 1)).length - q),
               (pg.drop p).take (pg.length - q - p)⟩] := by
  subst hp hq
  simp only [permuteBody]
  rw [if_neg (by omega)]

theorem permuteBody_none_of_le {sent : PhraseSegmentation} {g start : Nat}
    {pg : PhraseSegmentation}
    (hc : ((sent.drop start).take (g + 1)).length ≤ cpl ((sent.drop start).take (g + 1)) pg) :
    permuteBody sent g start pg = none := by
  simp only [permuteBody]
  rw [if_pos hc]

theorem resegmentBody_eq_some {sent : PhraseSegmentation} {g start : Nat}
    {newseg : PhraseSegmentation} {p q : Nat}
    (hp : p = cpl ((sent.drop start).take (g + 1)) newseg)
    (hq : q = csl ((sent.drop start).take (g + 1)) newseg)
    (hc : p < ((sent.drop start).take (g + 1)).length) :
    resegmentBody sent g start newseg
      = some [⟨start + p, start + p + (newseg.length - q - p), start + p,
               start + (((sent.drop start).take (g + 1)).length - q),
               (newseg.drop p).take (newseg.length - q - p)⟩] := by
  subst hp hq
  simp only [resegmentBody]
  rw [if_neg (by omega)]

theorem resegmentBody_none_of_le {sent : PhraseSegmentation} {g start : Nat}
    {newseg : PhraseSegmentation}
    (hc : ((sent.drop start).take (g + 1)).length
      ≤ cpl ((sent.drop start).take (g + 1)) newseg) :
    resegmentBody sent g start newseg = none := by
  simp only [resegmentBody]
  rw [if_pos hc]

theorem lineariseBody_eq_some {sent : PhraseSegmentation} {g start v : Nat} {p q : Nat}
    (hv : adjFind ((sent.drop start).take (g + 1)) = some v)
    (hp : p = cpl (((sent.drop start).take (g + 1)).drop v)
      (List.insertionSort leAnchor (((sent.drop start).take (g + 1)).drop v)))
    (hq : q = csl (((sent.drop start).take (g + 1)).drop v)
      (List.insertionSort leAnchor (((sent.drop start).take (g + 1)).drop v))) :
    lineariseBody sent g start
      = some [⟨start + p,
               start + p + ((List.insertionSort leAnchor
                 (((sent.drop start).take (g + 1)).drop v)).length - q - p),
               start + v + p,
               start + v + ((((sent.drop start).take (g + 1)).drop v).length - q),
               ((List.insertionSort leAnchor
                 (((sent.drop start).take (g + 1)).drop v)).drop p).take
                 ((List.insertionSort leAnchor
                   (((sent.drop start).take (g + 1)).drop v)).length - q - p)⟩] := by
  subst hp hq
  simp only [lineariseBody]
  rw [hv]

/-! ### adjacent_find facts -/

theorem adjFind_some_drop : ∀ (l : PhraseSegmentation) (v : Nat), adjFind l = some v →
    ∃ a b rest, l.drop v = a :: b :: rest ∧ ¬ compareByAnchor a b
  | [], v => by simp [adjFind]
  | [a], v => by simp [adjFind]
  | a :: b :: rest, v => by
    intro h
    by_cases hc : compareByAnchor a b
    · simp only [adjFind] at h
      rw [if_pos hc] at h
      rcases Option.map_eq_some'.mp h with ⟨v2, hv2, hveq⟩
      obtain ⟨x, y, r2, hdrop, hxy⟩ := adjFind_some_drop (b :: rest) v2 hv2
      refine ⟨x, y, r2, ?_, hxy⟩
      rw [← hveq, List.drop_succ_cons, hdrop]
    · simp only [adjFind] at h
      rw [if_neg hc] at h
      have hv0 := Option.some.inj h
      exact ⟨a, b, rest, by rw [← hv0, List.drop_zero], hc⟩

theorem adjFind_lt_length {l : PhraseSegmentation} {v : Nat} (h : adjFind l = some v) :
    v + 1 < l.length := by
  obtain ⟨a, b, rest, hd, _⟩ := adjFind_some_drop l v h
  have hlen := congrArg List.length hd
  rw [List.length_drop] at hlen
  simp only [List.length_cons] at hlen
  omega

/-! ### Arithmetic facts for SwapPhrases -/

theorem swapDir_false_pos {size p1 : Nat} {coin : Bool}
    (hdir : swapDir size p1 coin = false) : p1 ≠ 0 := by
  intro h0
  unfold swapDir at hdir
  rw [if_pos h0] at hdir
  exact absurd hdir (by simp)

theorem swapDir_true_ne_last {size p1 : Nat} {coin : Bool} (hsz : 2 ≤ size)
    (hdir : swapDir size p1 coin = true) (hp1 : p1 < size) : p1 ≠ size - 1 := by
  intro hl
  unfold swapDir at hdir
  by_cases h0 : p1 = 0
  · omega
  · rw [if_neg h0, if_pos hl] at hdir
    exact absurd hdir (by simp)

theorem swapP2_right {size p1 gd : Nat} {coin : Bool}
    (hdir : swapDir size p1 coin = true)
    (hsz : 2 ≤ size) (hp1 : p1 < size) (hgd : gd + 1 ≤ size - p1 - 1) :
    p1 < swapP2 size p1 coin gd ∧ swapP2 size p1 coin gd < size := by
  unfold swapP2
  rw [hdir]
  rw [if_pos rfl]
  by_cases he : p1 = size - 2
  · rw [if_pos he]
    omega
  · rw [if_neg he]
    omega

theorem swapP2_left {size p1 gd : Nat} {coin : Bool}
    (hdir : swapDir size p1 coin = false)
    (hp1 : p1 < size) (hgd : gd + 1 ≤ p1) :
    swapP2 size p1 coin gd < p1 := by
  have hpos := swapDir_false_pos hdir
  unfold swapP2
  rw [hdir]
  rw [if_neg (by simp)]
  by_cases he : p1 = 1
  · rw [if_pos he]
    omega
  · rw [if_neg he]
    omega

/-! ### Arithmetic facts for MovePhrases -/

theorem moveDest_right {size block start gd : Nat}
    (hblock : 1 ≤ block) (hstart : start + block ≤ size - 1) (hsz : 2 ≤ size)
    (hgd : start + block = size - 1 ∨ start + block + gd + 1 ≤ size) :
    start + block + 1 ≤ moveDest size true block start gd ∧
      moveDest size true block start gd ≤ size := by
  unfold moveDest
  rw [if_pos rfl]
  by_cases he : start + block = size - 1
  · rw [if_pos he]
    omega
  · rw [if_neg he]
    omega

theorem moveDest_left {size block start gd : Nat}
    (hstart1 : 1 ≤ start)
    (hgd : start = 1 ∨ gd + 1 ≤ start) :
    moveDest size false block start gd + 1 ≤ start := by
  unfold moveDest
  rw [if_neg (by simp)]
  by_cases he : start = 1
  · rw [if_pos he]
    omega
  · rw [if_neg he]
    omega

/-! ### Applying two single-cell replacements (SwapPhrases) -/

theorem double_single_apply (l : PhraseSegmentation) (i j : Nat)
    (x y : PhraseSegmentation) (mf1 mt1 mf2 mt2 : Nat)
    (hij : i < j) (hjl : j ≤ l.length) :
    applyOne (applyOne l ⟨mf2, mt2, j, j + 1, y⟩) ⟨mf1, mt1, i, i + 1, x⟩
      = l.take i ++ x ++ (l.take j).drop (i + 1) ++ y ++ l.drop (j + 1) := by
  unfold applyOne
  dsimp only
  have hlen : (l.take j).length = j := by
    rw [List.length_take]
    omega
  have h1 : (l.take j ++ y ++ l.drop (j + 1)).take i = l.take i := by
    rw [List.append_assoc, List.take_append_of_le_length (by omega),
      List.take_take, inf_eq_left.mpr (by omega)]
  have h2 : (l.take j ++ y ++ l.drop (j + 1)).drop (i + 1)
      = (l.take j).drop (i + 1) ++ y ++ l.drop (j + 1) := by
    rw [List.append_assoc, List.drop_append_of_le_length (by omega), List.append_assoc]
  rw [h1, h2]
  simp [List.append_assoc]

theorem double_decomp (l : PhraseSegmentation) (i j : Nat)
    (hij : i < j) (hj : j < l.length) :
    l = l.take i ++ [l.getD i dAPP] ++ (l.take j).drop (i + 1)
        ++ [l.getD j dAPP] ++ l.drop (j + 1) := by
  have h1 := eq_take_getD_drop l j hj
  have h2 := eq_take_getD_drop (l.take j) i (by rw [List.length_take]; omega)
  have h3 : (l.take j).take i = l.take i := by
    rw [List.take_take, inf_eq_left.mpr (by omega)]
  have h4 : (l.take j).getD i dAPP = l.getD i dAPP := by
    rw [List.getD_eq_getElem?_getD, List.getD_eq_getElem?_getD, List.getElem?_take, if_pos hij]
  rw [h3, h4] at h2
  conv_lhs => rw [h1, h2]
  simp [List.append_assoc]

/-! ### Applying an insertion and a deletion (MovePhrases) -/

theorem mid_split (l : PhraseSegmentation) (k dest : Nat) (hk : k ≤ dest) :
    l.drop k = (l.take dest).drop k ++ l.drop dest := by
  rw [List.drop_take]
  conv_lhs => rw [← List.take_append_drop (dest - k) (l.drop k)]
  rw [List.drop_drop]
  congr 2
  omega

theorem move_apply_right (sent : PhraseSegmentation) (startm block dest : Nat)
    (h1 : startm + block ≤ dest) (h2 : dest ≤ sent.length) :
    applyStep sent [⟨dest, dest, dest, dest, (sent.drop startm).take block⟩,
                    ⟨startm, startm + block, startm, startm + block, []⟩]
      = sent.take startm ++ (sent.take dest).drop (startm + block)
        ++ (sent.drop startm).take block ++ sent.drop dest := by
  rw [applyStep_pair_le _ _ _ (by dsimp only; omega)]
  unfold applyOne
  dsimp only
  have hlen : (sent.take dest).length = dest := by
    rw [List.length_take]
    omega
  have ha : (sent.take dest ++ (sent.drop startm).take block ++ sent.drop dest).take startm
      = sent.take startm := by
    rw [List.append_assoc, List.take_append_of_le_length (by omega),
      List.take_take, inf_eq_left.mpr (by omega)]
  have hb : (sent.take dest ++ (sent.drop startm).take block ++ sent.drop dest).drop
      (startm + block)
      = (sent.take dest).drop (startm + block) ++ (sent.drop startm).take block
        ++ sent.drop dest := by
    rw [List.append_assoc, List.drop_append_of_le_length (by omega), List.append_assoc]
  rw [ha, hb]
  simp [List.append_assoc]

theorem move_apply_left (sent : PhraseSegmentation) (startm block dest : Nat)
    (h1 : dest < startm) (h2 : startm ≤ sent.length) :
    applyStep sent [⟨dest, dest, dest, dest, (sent.drop startm).take block⟩,
                    ⟨startm, startm + block, startm, startm + block, []⟩]
      = sent.take dest ++ (sent.drop startm).take block
        ++ (sent.take startm).drop dest ++ sent.drop (startm + block) := by
  rw [applyStep_pair_gt _ _ _ (by dsimp only; omega)]
  unfold applyOne
  dsimp only
  have hlen : (sent.take startm).length = startm := by
    rw [List.length_take]
    omega
  have ha : (sent.take startm ++ [] ++ sent.drop (startm + block)).take dest
      = sent.take dest := by
    rw [List.append_assoc, List.take_append_of_le_length (by omega),
      List.take_take, inf_eq_left.mpr (by omega)]
  have hb : (sent.take startm ++ [] ++ sent.drop (startm + block)).drop dest
      = (sent.take startm).drop dest ++ sent.drop (startm + block) := by
    rw [List.append_assoc, List.drop_append_of_le_length (by omega)]
    simp
  rw [ha, hb]
  simp [List.append_assoc]

theorem move_decomp_right (sent : PhraseSegmentation) (startm block dest : Nat)
    (h1 : startm + block ≤ dest) :
    sent = sent.take startm ++ (sent.drop startm).take block
      ++ (sent.take dest).drop (startm + block) ++ sent.drop dest := by
  conv_lhs => rw [seg_decomp sent startm block]
  rw [mid_split sent (startm + block) dest h1]
  simp [List.append_assoc]

theorem move_decomp_left (sent : PhraseSegmentation) (startm block dest : Nat)
    (h1 : dest ≤ startm) :
    sent = sent.take dest ++ (sent.take startm).drop dest
      ++ (sent.drop startm).take block ++ sent.drop (startm + block) := by
  conv_lhs => rw [seg_decomp sent startm block]
  have h3 : sent.take startm = sent.take dest ++ (sent.take startm).drop dest := by
    conv_lhs => rw [← List.take_append_drop dest (sent.take startm)]
    rw [List.take_take, inf_eq_left.mpr h1]
  conv_lhs => rw [h3]

/-! ### Main facts: PermutePhrases -/

theorem permute_main (sent : PhraseSegmentation) (g start : Nat)
    (pg : PhraseSegmentation) (mods : List Modification)
    (hstart : start + (g + 1) ≤ sent.length)
    (hperm : ((sent.drop start).take (g + 1)).Perm pg)
    (hstep : permuteBody sent g start pg = some mods) :
    applyStep sent mods = sent.take start ++ pg ++ sent.drop (start + (g + 1))
      ∧ pg ≠ (sent.drop start).take (g + 1) := by
  have hslen : ((sent.drop start).take (g + 1)).length = g + 1 :=
    slice_length sent start (g + 1) hstart
  have hpglen : pg.length = g + 1 := by
    rw [← hperm.length_eq, hslen]
  by_cases hc : ((sent.drop start).take (g + 1)).length
      ≤ cpl ((sent.drop start).take (g + 1)) pg
  · rw [permuteBody_none_of_le hc] at hstep
    exact absurd hstep (by simp)
  · push_neg at hc
    have hne : pg ≠ (sent.drop start).take (g + 1) := by
      intro he
      rw [he, cpl_self] at hc
      omega
    refine ⟨?_, hne⟩
    rw [permuteBody_eq_some rfl rfl hc] at hstep
    have hmods := (Option.some.inj hstep).symm
    subst hmods
    rw [applyStep_singleton]
    unfold applyOne
    dsimp only
    have hpq : cpl ((sent.drop start).take (g + 1)) pg
        + csl ((sent.drop start).take (g + 1)) pg ≤ g + 1 := by
      have h5 := cpl_add_csl_le ((sent.drop start).take (g + 1)) pg
        (by rw [hslen, hpglen]) hc
      omega
    have hd := csl_drop_eq ((sent.drop start).take (g + 1)) pg
    rw [hslen] at hd
    rw [hslen]
    exact splice_eq sent start (g + 1) _ _ pg hstart (cpl_take_eq _ _) hd hpq
      (by rw [hpglen]; exact hpq)

/-! ### Main facts: Resegment -/

theorem reseg_main (sent : PhraseSegmentation) (g start : Nat)
    (newseg : PhraseSegmentation) (mods : List Modification)
    (hvalid : ValidSeg sent)
    (hstart : start + (g + 1) ≤ sent.length)
    (hdisj : newseg.Pairwise (fun a b => Disjoint a.cov b.cov))
    (hne : ∀ a ∈ newseg, a.cov ≠ ∅)
    (hcover : covUnion newseg = covUnion ((sent.drop start).take (g + 1)))
    (hstep : resegmentBody sent g start newseg = some mods) :
    applyStep sent mods = sent.take start ++ newseg ++ sent.drop (start + (g + 1))
      ∧ covM newseg = covM ((sent.drop start).take (g + 1))
      ∧ newseg ≠ (sent.drop start).take (g + 1) := by
  have hslen : ((sent.drop start).take (g + 1)).length = g + 1 :=
    slice_length sent start (g + 1) hstart
  have hsub : ((sent.drop start).take (g + 1)).Sublist sent :=
    (List.take_sublist _ _).trans (List.drop_sublist _ _)
  have hsldisj := List.Pairwise.sublist hsub hvalid.1
  have hslne : ∀ a ∈ (sent.drop start).take (g + 1), a.cov ≠ ∅ :=
    fun a ha => hvalid.2 a (hsub.subset ha)
  have hsum : covM ((sent.drop start).take (g + 1)) = covM newseg := by
    rw [covM_eq_covUnion_val _ hsldisj, covM_eq_covUnion_val newseg hdisj, hcover]
  by_cases hc : ((sent.drop start).take (g + 1)).length
      ≤ cpl ((sent.drop start).take (g + 1)) newseg
  · rw [resegmentBody_none_of_le hc] at hstep
    exact absurd hstep (by simp)
  · push_neg at hc
    have hno := no_overshoot ((sent.drop start).take (g + 1)) newseg hsum hslne hne hc
    have hnne : newseg ≠ (sent.drop start).take (g + 1) := by
      intro he
      rw [he, cpl_self] at hc
      omega
    refine ⟨?_, hsum.symm, hnne⟩
    rw [resegmentBody_eq_some rfl rfl hc] at hstep
    have hmods := (Option.some.inj hstep).symm
    subst hmods
    rw [applyStep_singleton]
    unfold applyOne
    dsimp only
    have hd := csl_drop_eq ((sent.drop start).take (g + 1)) newseg
    rw [hslen] at hd
    have hpq2 : cpl ((sent.drop start).take (g + 1)) newseg
        + csl ((sent.drop start).take (g + 1)) newseg ≤ g + 1 := by
      have h6 := hno.2.2.2.1
      rw [hslen] at h6
      exact h6
    rw [hslen]
    exact splice_eq sent start (g + 1) _ _ newseg hstart (cpl_take_eq _ _) hd
      hpq2 hno.2.2.2.2

/-! ### Main facts: LinearisePhrases -/

theorem lineariseBody_some_v {sent : PhraseSegmentation} {g start : Nat}
    {mods : List Modification}
    (h : lineariseBody sent g start = some mods) :
    ∃ v, adjFind ((sent.drop start).take (g + 1)) = some v := by
  rcases hv : adjFind ((sent.drop start).take (g + 1)) with _ | v
  · simp only [lineariseBody] at h
    rw [hv] at h
    exact absurd h (by simp)
  · exact ⟨v, rfl⟩

theorem linearise_main (sent : PhraseSegmentation) (g start v : Nat)
    (mods : List Modification)
    (hvalid : ValidSeg sent)
    (hstart : start + (g + 1) ≤ sent.length)
    (hv : adjFind ((sent.drop start).take (g + 1)) = some v)
    (hstep : lineariseBody sent g start = some mods) :
    v < g + 1
      ∧ applyStep sent mods
        = sent.take (start + v)
          ++ List.insertionSort leAnchor (((sent.drop start).take (g + 1)).drop v)
          ++ sent.drop (start + (g + 1))
      ∧ (List.insertionSort leAnchor (((sent.drop start).take (g + 1)).drop v)).Perm
          (((sent.drop start).take (g + 1)).drop v)
      ∧ List.insertionSort leAnchor (((sent.drop start).take (g + 1)).drop v)
          ≠ ((sent.drop start).take (g + 1)).drop v := by
  have hslen : ((sent.drop start).take (g + 1)).length = g + 1 :=
    slice_length sent start (g + 1) hstart
  have hvlt : v < g + 1 := by
    have h9 := adjFind_lt_length hv
    omega
  have hperm2 := List.perm_insertionSort leAnchor (((sent.drop start).take (g + 1)).drop v)
  have hs2len : (((sent.drop start).take (g + 1)).drop v).length = g + 1 - v := by
    rw [List.length_drop, hslen]
  have hpglen2 := List.length_insertionSort leAnchor (((sent.drop start).take (g + 1)).drop v)
  obtain ⟨a, b, rest, hd, hviol⟩ := adjFind_some_drop _ v hv
  have hsub2 : (((sent.drop start).take (g + 1)).drop v).Sublist sent :=
    (List.drop_sublist _ _).trans ((List.take_sublist _ _).trans (List.drop_sublist _ _))
  have hpairne := List.Pairwise.sublist hsub2 (validSeg_minPos_pairwise hvalid)
  rw [hd] at hpairne
  have hmne : minPos a ≠ minPos b :=
    (List.pairwise_cons.mp hpairne).1 b (List.mem_cons_self b rest)
  have hsortne : List.insertionSort leAnchor (((sent.drop start).take (g + 1)).drop v)
      ≠ ((sent.drop start).take (g + 1)).drop v := by
    intro he
    have hsorted := List.sorted_insertionSort leAnchor
      (((sent.drop start).take (g + 1)).drop v)
    rw [he, hd, List.sorted_cons] at hsorted
    exact hviol (lt_of_le_of_ne (hsorted.1 b (List.mem_cons_self b rest)) hmne)
  refine ⟨hvlt, ?_, hperm2, hsortne⟩
  have hp : cpl (((sent.drop start).take (g + 1)).drop v)
      (List.insertionSort leAnchor (((sent.drop start).take (g + 1)).drop v))
      < (((sent.drop start).take (g + 1)).drop v).length :=
    cpl_lt_of_ne _ _ hpglen2.symm (fun he => hsortne he.symm)
  have hpqs := cpl_add_csl_le (((sent.drop start).take (g + 1)).drop v)
    (List.insertionSort leAnchor (((sent.drop start).take (g + 1)).drop v))
    hpglen2.symm hp
  rw [lineariseBody_eq_some hv rfl rfl] at hstep
  have hmods := (Option.some.inj hstep).symm
  subst hmods
  rw [applyStep_singleton]
  unfold applyOne
  dsimp only
  have hs2slice : ((sent.drop start).take (g + 1)).drop v
      = (sent.drop (start + v)).take (g + 1 - v) := by
    rw [List.drop_take, List.drop_drop]
  have hsplice := splice_eq sent (start + v) (g + 1 - v)
    (cpl (((sent.drop start).take (g + 1)).drop v)
      (List.insertionSort leAnchor (((sent.drop start).take (g + 1)).drop v)))
    (csl (((sent.drop start).take (g + 1)).drop v)
      (List.insertionSort leAnchor (((sent.drop start).take (g + 1)).drop v)))
    (List.insertionSort leAnchor (((sent.drop start).take (g + 1)).drop v))
    (by omega)
    (by rw [← hs2slice]; exact cpl_take_eq _ _)
    (by
      rw [← hs2slice]
      have h7 := csl_drop_eq (((sent.drop start).take (g + 1)).drop v)
        (List.insertionSort leAnchor (((sent.drop start).take (g + 1)).drop v))
      rw [hs2len] at h7
      exact h7)
    (by rw [hs2len] at hpqs; exact hpqs)
    (by rw [hpglen2, hs2len]; rw [hs2len] at hpqs; exact hpqs)
  have harr : start + v + (g + 1 - v) = start + (g + 1) := by omega
  rw [harr] at hsplice
  rw [hs2len]
  exact hsplice

/-! ### Main facts: SwapPhrases -/

theorem covM_singleton (a : AnchoredPhrasePair) : covM [a] = a.cov.val := by
  rw [covM_cons, covM_nil, add_zero]

theorem swap_core (sent : PhraseSegmentation) (i j : Nat) (hvalid : ValidSeg sent)
    (hij : i < j) (hj : j < sent.length) :
    covM (sent.take i ++ [sent.getD j dAPP] ++ (sent.take j).drop (i + 1)
      ++ [sent.getD i dAPP] ++ sent.drop (j + 1)) = covM sent
    ∧ sent.take i ++ [sent.getD j dAPP] ++ (sent.take j).drop (i + 1)
      ++ [sent.getD i dAPP] ++ sent.drop (j + 1) ≠ sent := by
  constructor
  · conv_rhs => rw [double_decomp sent i j hij hj]
    simp only [covM_append, covM_singleton]
    abel
  · intro heq
    conv_rhs at heq => rw [double_decomp sent i j hij hj]
    simp only [List.append_assoc, List.singleton_append] at heq
    have h2 := List.append_cancel_left heq
    injection h2 with h3 _
    rw [getD_of_lt sent j hj, getD_of_lt sent i (by omega)] at h3
    exact validSeg_getElem_ne hvalid j i hj (by omega) (by omega) h3

theorem swap_main (sent : PhraseSegmentation) (p1 : Nat) (coin : Bool) (gd : Nat)
    (hvalid : ValidSeg sent)
    (hsz : 2 ≤ sent.length) (hp1 : p1 < sent.length)
    (hgd : gd + 1 ≤ if swapDir sent.length p1 coin then sent.length - p1 - 1 else p1) :
    covM (applyStep sent (swapBody sent p1 coin gd)) = covM sent
      ∧ applyStep sent (swapBody sent p1 coin gd) ≠ sent := by
  cases hdir : swapDir sent.length p1 coin with
  | false =>
    rw [hdir, if_neg (by simp)] at hgd
    have hp2 : swapP2 sent.length p1 coin gd < p1 := swapP2_left hdir hp1 hgd
    simp only [swapBody]
    rw [applyStep_pair_le _ _ _ (by dsimp only; omega)]
    rw [double_single_apply sent (swapP2 sent.length p1 coin gd) p1
      ((sent.drop p1).take 1) ((sent.drop (swapP2 sent.length p1 coin gd)).take 1)
      _ _ _ _ hp2 (Nat.le_of_lt hp1)]
    rw [slice_one sent p1 hp1, slice_one sent (swapP2 sent.length p1 coin gd)
      (Nat.lt_trans hp2 hp1)]
    exact swap_core sent (swapP2 sent.length p1 coin gd) p1 hvalid hp2 hp1
  | true =>
    rw [hdir, if_pos rfl] at hgd
    obtain ⟨hlt, hlt2⟩ := swapP2_right hdir hsz hp1 hgd
    simp only [swapBody]
    rw [applyStep_pair_gt _ _ _ (by dsimp only; omega)]
    rw [double_single_apply sent p1 (swapP2 sent.length p1 coin gd)
      ((sent.drop (swapP2 sent.length p1 coin gd)).take 1) ((sent.drop p1).take 1)
      _ _ _ _ hlt (Nat.le_of_lt hlt2)]
    rw [slice_one sent (swapP2 sent.length p1 coin gd) hlt2, slice_one sent p1 hp1]
    exact swap_core sent p1 (swapP2 sent.length p1 coin gd) hvalid hlt hlt2

/-! ### Main facts: MovePhrases -/

theorem move_main (sent : PhraseSegmentation) (dirc : Bool) (gb s0 gd : Nat)
    (hvalid : ValidSeg sent)
    (hsz : 2 ≤ sent.length)
    (hgb : gb + 1 ≤ sent.length - 1)
    (hs0 : s0 + (gb + 1) < sent.length)
    (hgd : if dirc
      then moveStart dirc s0 + (gb + 1) = sent.length - 1 ∨
           moveStart dirc s0 + (gb + 1) + (gd + 1) ≤ sent.length
      else moveStart dirc s0 = 1 ∨ gd + 1 ≤ moveStart dirc s0) :
    covM (applyStep sent (moveBody sent dirc gb s0 gd)) = covM sent
      ∧ applyStep sent (moveBody sent dirc gb s0 gd) ≠ sent := by
  cases dirc with
  | true =>
    rw [if_pos rfl] at hgd
    have hms : moveStart true s0 = s0 := rfl
    rw [hms] at hgd
    obtain ⟨hd1, hd2⟩ := @moveDest_right sent.length (gb + 1)
      s0 gd (by omega) (by omega) hsz (by omega)
    simp only [moveBody]
    rw [hms]
    rw [move_apply_right sent s0 (gb + 1)
      (moveDest sent.length true (gb + 1) s0 gd) (by omega) hd2]
    have hmid : 0 < ((sent.take (moveDest sent.length true (gb + 1) s0 gd)).drop
        (s0 + (gb + 1))).length := by
      rw [List.length_drop, List.length_take]
      omega
    have hblk : 0 < ((sent.drop s0).take (gb + 1)).length := by
      rw [slice_length sent s0 (gb + 1) (by omega)]
      omega
    constructor
    · conv_rhs => rw [move_decomp_right sent s0 (gb + 1)
        (moveDest sent.length true (gb + 1) s0 gd) (by omega)]
      simp only [covM_append]
      abel
    · intro heq
      conv_rhs at heq => rw [move_decomp_right sent s0 (gb + 1)
        (moveDest sent.length true (gb + 1) s0 gd) (by omega)]
      simp only [List.append_assoc] at heq
      have h2 := List.append_cancel_left heq
      have h0 := congrArg (fun l : PhraseSegmentation => l[0]?) h2
      dsimp only at h0
      rw [List.getElem?_append_left hmid, List.getElem?_append_left hblk] at h0
      rw [List.getElem?_drop, List.getElem?_take] at h0
      rw [slice_getElem? sent s0 (gb + 1) 0 (by omega)] at h0
      simp only [Nat.add_zero] at h0
      rw [if_pos (by omega)] at h0
      rw [List.getElem?_eq_getElem (by omega : s0 + (gb + 1) < sent.length),
        List.getElem?_eq_getElem (by omega : s0 < sent.length)] at h0
      exact validSeg_getElem_ne hvalid (s0 + (gb + 1)) s0 (by omega) (by omega) (by omega)
        (Option.some.inj h0)
  | false =>
    rw [if_neg (by simp)] at hgd
    have hms : moveStart false s0 = s0 + 1 := rfl
    rw [hms] at hgd
    have hd3 := @moveDest_left sent.length (gb + 1)
      (s0 + 1) gd (by omega) hgd
    simp only [moveBody]
    rw [hms]
    rw [move_apply_left sent (s0 + 1) (gb + 1)
      (moveDest sent.length false (gb + 1) (s0 + 1) gd) (by omega) (by omega)]
    have hblk : 0 < ((sent.drop (s0 + 1)).take (gb + 1)).length := by
      rw [slice_length sent (s0 + 1) (gb + 1) (by omega)]
      omega
    have hmid : 0 < ((sent.take (s0 + 1)).drop
        (moveDest sent.length false (gb + 1) (s0 + 1) gd)).length := by
      rw [List.length_drop, List.length_take]
      omega
    constructor
    · conv_rhs => rw [move_decomp_left sent (s0 + 1) (gb + 1)
        (moveDest sent.length false (gb + 1) (s0 + 1) gd) (by omega)]
      simp only [covM_append]
      abel
    · intro heq
      conv_rhs at heq => rw [move_decomp_left sent (s0 + 1) (gb + 1)
        (moveDest sent.length false (gb + 1) (s0 + 1) gd) (by omega)]
      simp only [List.append_assoc] at heq
      have h2 := List.append_cancel_left heq
      have h0 := congrArg (fun l : PhraseSegmentation => l[0]?) h2
      dsimp only at h0
      rw [List.getElem?_append_left hblk, List.getElem?_append_left hmid] at h0
      rw [slice_getElem? sent (s0 + 1) (gb + 1) 0 (by omega)] at h0
      rw [List.getElem?_drop, List.getElem?_take] at h0
      simp only [Nat.add_zero] at h0
      rw [if_pos (by omega)] at h0
      rw [List.getElem?_eq_getElem (by omega : s0 + 1 < sent.length),
        List.getElem?_eq_getElem
          (by omega : moveDest sent.length false (gb + 1) (s0 + 1) gd < sent.length)] at h0
      exact validSeg_getElem_ne hvalid (s0 + 1)
        (moveDest sent.length false (gb + 1) (s0 + 1) gd) (by omega) (by omega) (by omega)
        (Option.some.inj h0)

/-! ### Main facts: ChangePhraseTranslation -/

theorem change_main (sent : PhraseSegmentation) (ph : Nat) (pp : AnchoredPhrasePair)
    (mods : List Modification)
    (hph : ph < sent.length)
    (hstep : changePhraseTranslation sent ph pp = some mods) :
    applyStep sent mods = sent.take ph ++ [pp] ++ sent.drop (ph + 1)
      ∧ sent.getD ph dAPP ≠ pp := by
  obtain ⟨old, hold, hne, hmods⟩ := changePhraseTranslation_some hstep
  have holdD : sent.getD ph dAPP = old := by
    rw [List.getD_eq_getElem?_getD, ← List.head?_drop, hold]
    rfl
  subst hmods
  refine ⟨?_, by rw [holdD]; exact hne⟩
  rw [applyStep_singleton]
  rfl

/-! ### The slice viewed from the shifted start (LinearisePhrases) -/

theorem s2_slice (sent : PhraseSegmentation) (g start v : Nat) :
    ((sent.drop start).take (g + 1)).drop v = (sent.drop (start + v)).take (g + 1 - v) := by
  rw [List.drop_take, List.drop_drop]

/-! ### Every emitted step preserves the covered-position multiset -/

theorem emits_covM (sent : PhraseSegmentation) (mods : List Modification)
    (hvalid : ValidSeg sent) (h : Emits sent mods) :
    covM (applyStep sent mods) = covM sent := by
  cases h with
  | change ph pp mods hph hcov hstep =>
    have main := change_main sent ph pp mods hph hstep
    rw [main.1]
    conv_rhs => rw [eq_take_getD_drop sent ph hph]
    rw [covM_append, covM_append, covM_singleton, covM_append, covM_cons, hcov, add_assoc]
  | permute g start pg mods hsz hg hstart hperm hstep =>
    have main := permute_main sent g start pg mods hstart hperm hstep
    rw [main.1]
    conv_rhs => rw [seg_decomp sent start (g + 1)]
    rw [covM_append, covM_append, covM_append, covM_append, covM_perm hperm]
  | linearise g start mods hsz hg hstart hstep =>
    obtain ⟨v, hv⟩ := lineariseBody_some_v hstep
    obtain ⟨hvlt, happly, hperm2, _⟩ :=
      linearise_main sent g start v mods hvalid hstart hv hstep
    rw [happly]
    conv_rhs => rw [seg_decomp sent (start + v) (g + 1 - v)]
    conv_rhs => rw [← s2_slice sent g start v]
    have harr : start + v + (g + 1 - v) = start + (g + 1) := by omega
    rw [harr]
    rw [covM_append, covM_append, covM_append, covM_append, covM_perm hperm2]
  | swap p1 coin gd hsz hp1 hgd =>
    exact (swap_main sent p1 coin gd hvalid hsz hp1 hgd).1
  | move dirc gb s0 gd hsz hgb hs0 hgd =>
    exact (move_main sent dirc gb s0 gd hvalid hsz hgb hs0 hgd).1
  | reseg g start newseg mods hg hstart hdisj hne hcover hstep =>
    have main := reseg_main sent g start newseg mods hvalid hstart hdisj hne hcover hstep
    rw [main.1]
    conv_rhs => rw [seg_decomp sent start (g + 1)]
    rw [covM_append, covM_append, covM_append, covM_append, main.2.1]

/-! ### Every emitted step changes the segmentation -/

theorem emits_ne (sent : PhraseSegmentation) (mods : List Modification)
    (hvalid : ValidSeg sent) (h : Emits sent mods) :
    applyStep sent mods ≠ sent := by
  cases h with
  | change ph pp mods hph hcov hstep =>
    have main := change_main sent ph pp mods hph hstep
    rw [main.1]
    intro heq
    conv_rhs at heq => rw [eq_take_getD_drop sent ph hph]
    simp only [List.append_assoc, List.singleton_append] at heq
    have h2 := List.append_cancel_left heq
    injection h2 with h3 _
    exact main.2 h3.symm
  | permute g start pg mods hsz hg hstart hperm hstep =>
    have main := permute_main sent g start pg mods hstart hperm hstep
    rw [main.1]
    intro heq
    conv_rhs at heq => rw [seg_decomp sent start (g + 1)]
    simp only [List.append_assoc] at heq
    exact main.2 (List.append_cancel_right (List.append_cancel_left heq))
  | linearise g start mods hsz hg hstart hstep =>
    obtain ⟨v, hv⟩ := lineariseBody_some_v hstep
    obtain ⟨hvlt, happly, hperm2, hsortne⟩ :=
      linearise_main sent g start v mods hvalid hstart hv hstep
    rw [happly]
    intro heq
    conv_rhs at heq => rw [seg_decomp sent (start + v) (g + 1 - v)]
    conv_rhs at heq => rw [← s2_slice sent g start v]
    have harr : start + v + (g + 1 - v) = start + (g + 1) := by omega
    rw [harr] at heq
    simp only [List.append_assoc] at heq
    exact hsortne (List.append_cancel_right (List.append_cancel_left heq))
  | swap p1 coin gd hsz hp1 hgd =>
    exact (swap_main sent p1 coin gd hvalid hsz hp1 hgd).2
  | move dirc gb s0 gd hsz hgb hs0 hgd =>
    exact (move_main sent dirc gb s0 gd hvalid hsz hgb hs0 hgd).2
  | reseg g start newseg mods hg hstart hdisj hne hcover hstep =>
    have main := reseg_main sent g start newseg mods hvalid hstart hdisj hne hcover hstep
    rw [main.1]
    intro heq
    conv_rhs at heq => rw [seg_decomp sent start (g + 1)]
    simp only [List.append_assoc] at heq
    exact main.2.2 (List.append_cancel_right (List.append_cancel_left heq))

theorem emits_ne_nil (sent : PhraseSegmentation) (mods : List Modification)
    (hvalid : ValidSeg sent) (h : Emits sent mods) : mods ≠ [] := by
  intro he
  apply emits_ne sent mods hvalid h
  rw [he]
  rfl

/-! ### The preamble makes at most eleven draws -/

theorem preambleGo_spec (sizeOf draws : Nat → Nat) : ∀ (r k : Nat),
    (preambleGo sizeOf draws k r).2.2 ≤ k + r + 1
    ∧ k + 1 ≤ (preambleGo sizeOf draws k r).2.2
    ∧ (preambleGo sizeOf draws k r).1 = draws ((preambleGo sizeOf draws k r).2.2 - 1)
    ∧ (preambleGo sizeOf draws k r).2.1 = sizeOf (preambleGo sizeOf draws k r).1
    ∧ (2 ≤ (preambleGo sizeOf draws k r).2.1
        ∨ (preambleGo sizeOf draws k r).2.2 = k + r + 1)
    ∧ ∀ j, k ≤ j → j + 1 < (preambleGo sizeOf draws k r).2.2 → sizeOf (draws j) < 2
  | 0, k => by
    simp only [preambleGo]
    exact ⟨by omega, by omega, by simp, trivial, Or.inr trivial,
      fun j hk hj => absurd hj (by omega)⟩
  | r + 1, k => by
    by_cases hsz : sizeOf (draws k) < 2
    · have ih := preambleGo_spec sizeOf draws r (k + 1)
      simp only [preambleGo, if_pos hsz]
      refine ⟨by omega, by omega, ih.2.2.1, ih.2.2.2.1, ?_, ?_⟩
      · rcases ih.2.2.2.2.1 with h | h
        · exact Or.inl h
        · exact Or.inr (by omega)
      · intro j hk hj
        rcases Nat.eq_or_lt_of_le hk with he | hlt
        · rw [← he]
          exact hsz
        · exact ih.2.2.2.2.2 j hlt hj
    · simp only [preambleGo, if_neg hsz]
      exact ⟨by omega, by omega, by simp, trivial, Or.inl (by omega),
        fun j hk hj => absurd hj (by omega)⟩

/-! ### The emitted trimmed slices share no common end (Permute, Linearise, Resegment) -/

theorem trim_minimal (sent : PhraseSegmentation) (start n0 : Nat) (G : PhraseSegmentation)
    (hn : start + n0 ≤ sent.length) (p q : Nat)
    (hp : p = cpl ((sent.drop start).take n0) G)
    (hq : q = csl ((sent.drop start).take n0) G)
    (hold : (sent.drop (start + p)).take ((start + (n0 - q)) - (start + p)) ≠ [])
    (hrepl : (G.drop p).take (G.length - q - p) ≠ []) :
    ((sent.drop (start + p)).take ((start + (n0 - q)) - (start + p))).head?
        ≠ ((G.drop p).take (G.length - q - p)).head?
      ∧ ((sent.drop (start + p)).take ((start + (n0 - q)) - (start + p))).getLast?
        ≠ ((G.drop p).take (G.length - q - p)).getLast? := by
  have hslen : ((sent.drop start).take n0).length = n0 := slice_length sent start n0 hn
  have hqn0 : q ≤ n0 := by
    have h := csl_le_left ((sent.drop start).take n0) G
    rw [hslen] at h
    rw [hq]
    exact h
  have hrlen : 0 < ((G.drop p).take (G.length - q - p)).length :=
    List.length_pos.mpr hrepl
  rw [List.length_take, List.length_drop] at hrlen
  have holen : 0 < ((sent.drop (start + p)).take
      ((start + (n0 - q)) - (start + p))).length :=
    List.length_pos.mpr hold
  rw [List.length_take, List.length_drop] at holen
  have hpqn : p + q < n0 := by omega
  have hpqg : p + q < G.length := by omega
  have hcplne := cpl_get_ne ((sent.drop start).take n0) G
    (by rw [← hp, hslen]; omega) (by rw [← hp]; omega)
  rw [← hp] at hcplne
  have hcslne := csl_get_ne ((sent.drop start).take n0) G
    (by rw [← hq, hslen]; omega) (by rw [← hq]; omega)
  rw [← hq, hslen] at hcslne
  constructor
  · rw [slice_head sent (start + p) _ (by omega), slice_head G p _ (by omega)]
    have h1 : sent[start + p]? = ((sent.drop start).take n0)[p]? :=
      (slice_getElem? sent start n0 p (by omega)).symm
    rw [h1]
    exact hcplne
  · rw [slice_getLast? sent (start + p) _ (by omega) (by omega),
      slice_getLast? G p _ (by omega) (by omega)]
    have hi1 : start + p + ((start + (n0 - q)) - (start + p)) - 1
        = start + (n0 - q - 1) := by omega
    have hi2 : p + (G.length - q - p) - 1 = G.length - 1 - q := by omega
    rw [hi1, hi2]
    have h2 : sent[start + (n0 - q - 1)]? = ((sent.drop start).take n0)[n0 - q - 1]? :=
      (slice_getElem? sent start n0 (n0 - q - 1) (by omega)).symm
    rw [h2]
    have hi3 : n0 - 1 - q = n0 - q - 1 := by omega
    rw [hi3] at hcslne
    exact hcslne

/-! ### Splicing and document-level helpers -/

theorem take_prefix_of_append (A R : PhraseSegmentation) (k : Nat)
    (hA : A.length = k) : (A ++ R).take k = A := by
  rw [← hA, List.take_left]

theorem drop_prefix_of_append (A R : PhraseSegmentation) (k : Nat)
    (hA : A.length = k) : (A ++ R).drop k = R := by
  rw [← hA, List.drop_left]

theorem sorted_strict {pg : PhraseSegmentation}
    (h1 : List.Sorted leAnchor pg)
    (h2 : pg.Pairwise (fun a b => minPos a ≠ minPos b)) :
    pg.Pairwise compareByAnchor :=
  (List.Pairwise.and h1 h2).imp (fun h => lt_of_le_of_ne h.1 h.2)

theorem set_ne (doc : List PhraseSegmentation) (sentno : Nat)
    (x : PhraseSegmentation) (hs : sentno < doc.length)
    (hx : x ≠ doc.getD sentno []) : doc.set sentno x ≠ doc := by
  intro he
  apply hx
  have hlen : sentno < (doc.set sentno x).length := by
    rw [List.length_set]
    exact hs
  have h2 : (doc.set sentno x).getD sentno [] = x := by
    rw [List.getD_eq_getElem?_getD, List.getElem?_eq_getElem hlen,
      List.getElem_set hlen, if_pos rfl]
    rfl
  rw [← h2, he]

/-! ### Concrete segmentations used in the examples -/

def exA : AnchoredPhrasePair := ⟨{0}, [10]⟩

def exB : AnchoredPhrasePair := ⟨{1}, [11]⟩

def exAB : AnchoredPhrasePair := ⟨{0, 1}, [20]⟩

def exSent2 : PhraseSegmentation := [exA, exB]

def exModsR : List Modification := [⟨0, 1, 0, 2, [exAB]⟩]

def exPP : AnchoredPhrasePair := ⟨{0}, [99]⟩

def exModsC : List Modification := [⟨0, 1, 0, 1, [exPP]⟩]

/-- C1: the claim as stated is false.  A Resegment step that merges the two
pairs of [exA, exB] into the single pair exAB satisfies the
proposeSegmentation contract (pairwise disjoint, nonempty, covering exactly
the slice's coverage), yet applying it changes the multiset of per-pair
source-coverage bitmaps: two singleton bitmaps become one two-element
bitmap. -/
theorem C1_counterexample :
    ValidSeg exSent2 ∧ Emits exSent2 exModsR
      ∧ bitmaps (applyStep exSent2 exModsR) ≠ bitmaps exSent2 := by
  refine ⟨by decide, ?_, by decide⟩
  exact Emits.reseg exSent2 1 0 [exAB] exModsR (by decide) (by decide) (by decide)
    (by decide) (by decide) (by decide)

/-- C1 (amended): for every step emitted by any of the six operators on a
valid segmentation, under the stated PhrasePairCollection preconditions,
applying the modifications preserves the multiset of covered source
positions (the multiset union of the per-pair coverage bitmaps), though not
necessarily the multiset of the bitmaps themselves. -/
theorem C1_coverage_preserved : ∀ (sent : PhraseSegmentation)
    (mods : List Modification), ValidSeg sent → Emits sent mods →
    covM (applyStep sent mods) = covM sent :=
  fun sent mods hvalid h => emits_covM sent mods hvalid h

theorem C1_coverage_preserved_witness :
    ValidSeg exSent2 ∧ Emits exSent2 exModsR
      ∧ covM (applyStep exSent2 exModsR) = covM exSent2 := by
  have hvalid : ValidSeg exSent2 := by decide
  have hem : Emits exSent2 exModsR :=
    Emits.reseg exSent2 1 0 [exAB] exModsR (by decide) (by decide) (by decide)
      (by decide) (by decide) (by decide)
  exact ⟨hvalid, hem, C1_coverage_preserved exSent2 exModsR hvalid hem⟩

/-- C2: whenever the dispatcher's chosen operator emits a step for a drawn
sentence of a valid document, the step has at least one modification and
applying it to the document changes the document state. -/
theorem C2_dispatcher : ∀ (doc : List PhraseSegmentation) (sentno : Nat)
    (mods : List Modification), sentno < doc.length →
    ValidSeg (doc.getD sentno []) → Emits (doc.getD sentno []) mods →
    mods ≠ [] ∧ applyStepDoc doc sentno mods ≠ doc := by
  intro doc sentno mods hs hvalid hem
  refine ⟨emits_ne_nil _ _ hvalid hem, ?_⟩
  unfold applyStepDoc
  exact set_ne doc sentno _ hs (emits_ne _ _ hvalid hem)

theorem C2_dispatcher_witness :
    0 < ([exSent2] : List PhraseSegmentation).length
    ∧ ValidSeg (([exSent2] : List PhraseSegmentation).getD 0 [])
    ∧ Emits (([exSent2] : List PhraseSegmentation).getD 0 []) exModsC
    ∧ (exModsC ≠ [] ∧ applyStepDoc [exSent2] 0 exModsC ≠ [exSent2]) := by
  have h1 : 0 < ([exSent2] : List PhraseSegmentation).length := by decide
  have h2 : ValidSeg (([exSent2] : List PhraseSegmentation).getD 0 []) := by decide
  have h3 : Emits (([exSent2] : List PhraseSegmentation).getD 0 []) exModsC :=
    Emits.change _ 0 exPP exModsC (by decide) (by decide) (by decide)
  exact ⟨h1, h2, h3, C2_dispatcher [exSent2] 0 exModsC h1 h2 h3⟩

/-! ### LinearisePhrases: data for the worked example and the counterexample -/

def runA : AnchoredPhrasePair := ⟨{0}, [0]⟩

def runB : AnchoredPhrasePair := ⟨{1}, [1]⟩

def runC : AnchoredPhrasePair := ⟨{2}, [2]⟩

def runD : AnchoredPhrasePair := ⟨{3}, [3]⟩

def runSent : PhraseSegmentation := [runB, runA, runC, runD]

def runMods : List Modification := [⟨0, 2, 0, 2, [runA, runB]⟩]

def cexW1 : AnchoredPhrasePair := ⟨{1}, []⟩

def cexW3 : AnchoredPhrasePair := ⟨{3}, []⟩

def cexSent : PhraseSegmentation := [⟨{0}, []⟩, ⟨{2}, []⟩, cexW3, cexW1]

def cexMods : List Modification := [⟨0, 2, 2, 4, [cexW1, cexW3]⟩]

/-- C3: the claim as stated is false.  adjacent_find reassigns the run's
begin iterator to the first anchor-order violation, so only the suffix of
the selected run from that point is sorted: on the valid sentence with
anchors 0, 2, 3, 1 and selected run of all four phrases, the emitted step
sorts only the last two phrases, and the applied run 0, 2, 1, 3 is not in
ascending anchor order. -/
theorem C3_counterexample :
    ValidSeg cexSent
    ∧ lineariseBody cexSent 3 0 = some cexMods
    ∧ ¬ ((applyStep cexSent cexMods).take (0 + (3 + 1))).Pairwise
        compareByAnchor := by
  decide

/-- C3 (amended): for every LinearisePhrases step on a valid segmentation,
with v the offset of the first anchor-order violation found by
adjacent_find in the selected run, applying the emitted modification leaves
the prefix of the segmentation up to start + v unchanged and the part of
the run from the violation onward sorted in ascending anchor order; on the
sentence [B, A, C, D] with selected range of size 3 the emitted diff is the
trimmed middle [B, A] to [A, B] on range 0 to 2. -/
theorem C3_linearise : (∀ (sent : PhraseSegmentation) (g start v : Nat)
      (mods : List Modification),
      ValidSeg sent → start + (g + 1) ≤ sent.length →
      adjFind ((sent.drop start).take (g + 1)) = some v →
      lineariseBody sent g start = some mods →
      (applyStep sent mods).take (start + v) = sent.take (start + v)
      ∧ (((applyStep sent mods).drop (start + v)).take (g + 1 - v)).Pairwise
          compareByAnchor)
    ∧ lineariseBody runSent 2 0 = some runMods
    ∧ applyStep runSent runMods = [runA, runB, runC, runD] := by
  refine ⟨?_, by decide, by decide⟩
  intro sent g start v mods hvalid hstart hv hstep
  obtain ⟨hvlt, happly, hperm2, hsortne⟩ :=
    linearise_main sent g start v mods hvalid hstart hv hstep
  have htklen : (sent.take (start + v)).length = start + v := by
    rw [List.length_take]
    omega
  have hpglen : (List.insertionSort leAnchor
      (((sent.drop start).take (g + 1)).drop v)).length = g + 1 - v := by
    rw [List.length_insertionSort, List.length_drop,
      slice_length sent start (g + 1) hstart]
  constructor
  · rw [happly, List.append_assoc, take_prefix_of_append _ _ _ htklen]
  · rw [happly, List.append_assoc, drop_prefix_of_append _ _ _ htklen,
      take_prefix_of_append _ _ _ hpglen]
    apply sorted_strict (List.sorted_insertionSort leAnchor _)
    have hsub2 : (((sent.drop start).take (g + 1)).drop v).Sublist sent :=
      (List.drop_sublist _ _).trans
        ((List.take_sublist _ _).trans (List.drop_sublist _ _))
    have hpairne := List.Pairwise.sublist hsub2 (validSeg_minPos_pairwise hvalid)
    exact (List.Perm.pairwise_iff (fun h => h.symm) hperm2).mpr hpairne

theorem C3_linearise_witness :
    ValidSeg runSent ∧ 0 + (2 + 1) ≤ runSent.length
    ∧ adjFind ((runSent.drop 0).take (2 + 1)) = some 0
    ∧ lineariseBody runSent 2 0 = some runMods
    ∧ ((applyStep runSent runMods).take (0 + 0) = runSent.take (0 + 0)
      ∧ (((applyStep runSent runMods).drop (0 + 0)).take (2 + 1 - 0)).Pairwise
          compareByAnchor) := by
  refine ⟨by decide, by decide, by decide, by decide, ?_⟩
  exact C3_linearise.1 runSent 2 0 0 runMods (by decide) (by decide) (by decide)
    (by decide)

/-- C4: for every modification emitted by PermutePhrases, LinearisePhrases
or Resegment, when both the replaced slice and the replacement are
non-empty, their first elements differ and their last elements differ: the
trimming of the common prefix and suffix is maximal. -/
theorem C4_minimal_diff : (∀ (sent : PhraseSegmentation) (g start : Nat)
      (pg : PhraseSegmentation) (mods : List Modification) (m : Modification),
      start + (g + 1) ≤ sent.length →
      permuteBody sent g start pg = some mods → m ∈ mods →
      oldSliceOf sent m ≠ [] → m.repl ≠ [] →
      (oldSliceOf sent m).head? ≠ m.repl.head?
        ∧ (oldSliceOf sent m).getLast? ≠ m.repl.getLast?)
    ∧ (∀ (sent : PhraseSegmentation) (g start : Nat)
      (mods : List Modification) (m : Modification),
      start + (g + 1) ≤ sent.length →
      lineariseBody sent g start = some mods → m ∈ mods →
      oldSliceOf sent m ≠ [] → m.repl ≠ [] →
      (oldSliceOf sent m).head? ≠ m.repl.head?
        ∧ (oldSliceOf sent m).getLast? ≠ m.repl.getLast?)
    ∧ (∀ (sent : PhraseSegmentation) (g start : Nat)
      (newseg : PhraseSegmentation) (mods : List Modification) (m : Modification),
      start + (g + 1) ≤ sent.length →
      resegmentBody sent g start newseg = some mods → m ∈ mods →
      oldSliceOf sent m ≠ [] → m.repl ≠ [] →
      (oldSliceOf sent m).head? ≠ m.repl.head?
        ∧ (oldSliceOf sent m).getLast? ≠ m.repl.getLast?) := by
  refine ⟨?_, ?_, ?_⟩
  · intro sent g start pg mods m hstart hstep hm hold hrepl
    by_cases hc : ((sent.drop start).take (g + 1)).length
        ≤ cpl ((sent.drop start).take (g + 1)) pg
    · rw [permuteBody_none_of_le hc] at hstep
      exact absurd hstep (by simp)
    · push_neg at hc
      rw [permuteBody_eq_some rfl rfl hc] at hstep
      have hmods := (Option.some.inj hstep).symm
      subst hmods
      rw [List.mem_singleton] at hm
      subst hm
      dsimp only [oldSliceOf] at hold hrepl ⊢
      rw [slice_length sent start (g + 1) hstart] at hold ⊢
      exact trim_minimal sent start (g + 1) pg hstart _ _ rfl rfl hold hrepl
  · intro sent g start mods m hstart hstep hm hold hrepl
    obtain ⟨v, hv⟩ := lineariseBody_some_v hstep
    rw [lineariseBody_eq_some hv rfl rfl] at hstep
    have hmods := (Option.some.inj hstep).symm
    subst hmods
    rw [List.mem_singleton] at hm
    subst hm
    have hvlt : v + 1 < g + 1 := by
      have h9 := adjFind_lt_length hv
      rw [slice_length sent start (g + 1) hstart] at h9
      exact h9
    dsimp only [oldSliceOf] at hold hrepl ⊢
    have hs2len : (((sent.drop start).take (g + 1)).drop v).length = g + 1 - v := by
      rw [List.length_drop, slice_length sent start (g + 1) hstart]
    rw [hs2len] at hold ⊢
    rw [s2_slice sent g start v] at hold hrepl ⊢
    exact trim_minimal sent (start + v) (g + 1 - v)
      (List.insertionSort leAnchor ((sent.drop (start + v)).take (g + 1 - v)))
      (by omega) _ _ rfl rfl hold hrepl
  · intro sent g start newseg mods m hstart hstep hm hold hrepl
    by_cases hc : ((sent.drop start).take (g + 1)).length
        ≤ cpl ((sent.drop start).take (g + 1)) newseg
    · rw [resegmentBody_none_of_le hc] at hstep
      exact absurd hstep (by simp)
    · push_neg at hc
      rw [resegmentBody_eq_some rfl rfl hc] at hstep
      have hmods := (Option.some.inj hstep).symm
      subst hmods
      rw [List.mem_singleton] at hm
      subst hm
      dsimp only [oldSliceOf] at hold hrepl ⊢
      rw [slice_length sent start (g + 1) hstart] at hold ⊢
      exact trim_minimal sent start (g + 1) newseg hstart _ _ rfl rfl hold hrepl

def exModsP : List Modification := [⟨0, 2, 0, 2, [exB, exA]⟩]

theorem C4_minimal_diff_witness :
    0 + (1 + 1) ≤ exSent2.length
    ∧ permuteBody exSent2 1 0 [exB, exA] = some exModsP
    ∧ (⟨0, 2, 0, 2, [exB, exA]⟩ : Modification) ∈ exModsP
    ∧ oldSliceOf exSent2 ⟨0, 2, 0, 2, [exB, exA]⟩ ≠ []
    ∧ (⟨0, 2, 0, 2, [exB, exA]⟩ : Modification).repl ≠ []
    ∧ ((oldSliceOf exSent2 ⟨0, 2, 0, 2, [exB, exA]⟩).head?
          ≠ (⟨0, 2, 0, 2, [exB, exA]⟩ : Modification).repl.head?
      ∧ (oldSliceOf exSent2 ⟨0, 2, 0, 2, [exB, exA]⟩).getLast?
          ≠ (⟨0, 2, 0, 2, [exB, exA]⟩ : Modification).repl.getLast?) := by
  refine ⟨by decide, by decide, by decide, by decide, by decide, ?_⟩
  exact C4_minimal_diff.1 exSent2 1 0 [exB, exA] exModsP ⟨0, 2, 0, 2, [exB, exA]⟩
    (by decide) (by decide) (by decide) (by decide) (by decide)

/-- C5: the claim as stated is false.  The preamble is a do-while loop
guarded by size < 2 and trials++ < 10, so the first draw does not count as
a trial: with a document whose every sentence has a single phrase, eleven
drawSentence calls are made, not at most ten. -/
theorem C5_counterexample :
    (preamble (fun _ => 1) (fun i => i)).2.2 = 11
    ∧ ¬ (preamble (fun _ => 1) (fun i => i)).2.2 ≤ 10 := by
  decide

/-- C5 (amended): the common preamble of PermutePhrases, LinearisePhrases,
SwapPhrases and MovePhrases makes at least one and at most eleven
drawSentence calls; it returns the last drawn sentence together with its
size; every draw before the last produced a sentence of size < 2; it either
stops on a sentence of size at least 2 or exhausts all eleven draws; and
each of the four operators returns no proposal when the preamble's final
size is below 2. -/
theorem C5_preamble : (∀ sizeOf draws : Nat → Nat,
      (preamble sizeOf draws).2.2 ≤ 11
      ∧ 1 ≤ (preamble sizeOf draws).2.2
      ∧ (preamble sizeOf draws).1 = draws ((preamble sizeOf draws).2.2 - 1)
      ∧ (preamble sizeOf draws).2.1 = sizeOf ((preamble sizeOf draws).1)
      ∧ (2 ≤ (preamble sizeOf draws).2.1 ∨ (preamble sizeOf draws).2.2 = 11)
      ∧ ∀ j, j + 1 < (preamble sizeOf draws).2.2 → sizeOf (draws j) < 2)
    ∧ (∀ (sentences : List PhraseSegmentation) (draws : Nat → Nat)
        (g start : Nat) (pg : PhraseSegmentation) (p1 gd s0 gb : Nat)
        (coin dirc : Bool),
      (opPreamble sentences draws).2.1 < 2 →
        permuteOp sentences draws g start pg = none
        ∧ lineariseOp sentences draws g start = none
        ∧ swapOp sentences draws p1 coin gd = none
        ∧ moveOp sentences draws dirc gb s0 gd = none) := by
  constructor
  · intro sizeOf draws
    have h := preambleGo_spec sizeOf draws 10 0
    simp only [preamble]
    refine ⟨by omega, by omega, h.2.2.1, h.2.2.2.1, ?_,
      fun j hj => h.2.2.2.2.2 j (Nat.zero_le j) hj⟩
    rcases h.2.2.2.2.1 with h1 | h1
    · exact Or.inl h1
    · exact Or.inr (by omega)
  · intro sentences draws g start pg p1 gd s0 gb coin dirc hlt
    refine ⟨?_, ?_, ?_, ?_⟩
    · simp only [permuteOp]
      rw [if_pos hlt]
    · simp only [lineariseOp]
      rw [if_pos hlt]
    · simp only [swapOp]
      rw [if_pos hlt]
    · simp only [moveOp]
      rw [if_pos hlt]

theorem C5_preamble_witness :
    (opPreamble [[exA]] (fun _ => 0)).2.1 < 2
    ∧ (permuteOp [[exA]] (fun _ => 0) 0 0 [] = none
      ∧ lineariseOp [[exA]] (fun _ => 0) 0 0 = none
      ∧ swapOp [[exA]] (fun _ => 0) 0 true 0 = none
      ∧ moveOp [[exA]] (fun _ => 0) true 0 0 0 = none) := by
  refine ⟨by decide, ?_⟩
  exact C5_preamble.2 [[exA]] (fun _ => 0) 0 0 [] 0 0 0 0 true true (by decide)

def mvSent : PhraseSegmentation :=
  [⟨{0}, [0]⟩, ⟨{1}, [1]⟩, ⟨{2}, [2]⟩, ⟨{3}, [3]⟩, ⟨{4}, [4]⟩]

/-- C6: MovePhrases emits exactly two modifications against the original
segmentation, an insertion of the block's contents at dest (the empty range
from dest to dest) and a deletion of the block at its origin (the range
from start to start + block replaced by the empty slice); applying both
atomically moves the block, both for right moves and for left moves; in
the concrete case size 5, direction right, start 1, block 2, the
destination is 5 and the result is seg0, seg3, seg4, seg1, seg2. -/
theorem C6_move : (∀ (sent : PhraseSegmentation) (dirc : Bool) (gb s0 gd : Nat),
      moveBody sent dirc gb s0 gd
        = [⟨moveDest sent.length dirc (gb + 1) (moveStart dirc s0) gd,
            moveDest sent.length dirc (gb + 1) (moveStart dirc s0) gd,
            moveDest sent.length dirc (gb + 1) (moveStart dirc s0) gd,
            moveDest sent.length dirc (gb + 1) (moveStart dirc s0) gd,
            (sent.drop (moveStart dirc s0)).take (gb + 1)⟩,
           ⟨moveStart dirc s0, moveStart dirc s0 + (gb + 1), moveStart dirc s0,
            moveStart dirc s0 + (gb + 1), []⟩])
    ∧ (∀ (sent : PhraseSegmentation) (gb s0 gd : Nat),
      2 ≤ sent.length → gb + 1 ≤ sent.length - 1 → s0 + (gb + 1) < sent.length →
      (s0 + (gb + 1) = sent.length - 1 ∨ s0 + (gb + 1) + (gd + 1) ≤ sent.length) →
      applyStep sent (moveBody sent true gb s0 gd)
        = sent.take s0
          ++ (sent.take (moveDest sent.length true (gb + 1) s0 gd)).drop
              (s0 + (gb + 1))
          ++ (sent.drop s0).take (gb + 1)
          ++ sent.drop (moveDest sent.length true (gb + 1) s0 gd))
    ∧ (∀ (sent : PhraseSegmentation) (gb s0 gd : Nat),
      2 ≤ sent.length → gb + 1 ≤ sent.length - 1 → s0 + 1 + (gb + 1) ≤ sent.length →
      (s0 + 1 = 1 ∨ gd + 1 ≤ s0 + 1) →
      applyStep sent (moveBody sent false gb s0 gd)
        = sent.take (moveDest sent.length false (gb + 1) (s0 + 1) gd)
          ++ (sent.drop (s0 + 1)).take (gb + 1)
          ++ (sent.take (s0 + 1)).drop (moveDest sent.length false (gb + 1) (s0 + 1) gd)
          ++ sent.drop (s0 + 1 + (gb + 1)))
    ∧ moveBody mvSent true 1 1 1
      = [⟨5, 5, 5, 5, [⟨{1}, [1]⟩, ⟨{2}, [2]⟩]⟩, ⟨1, 3, 1, 3, []⟩]
    ∧ applyStep mvSent (moveBody mvSent true 1 1 1)
      = [⟨{0}, [0]⟩, ⟨{3}, [3]⟩, ⟨{4}, [4]⟩, ⟨{1}, [1]⟩, ⟨{2}, [2]⟩] := by
  refine ⟨fun sent dirc gb s0 gd => rfl, ?_, ?_, by decide, by decide⟩
  · intro sent gb s0 gd hsz hgb hs0 hgd
    have hms : moveStart true s0 = s0 := rfl
    obtain ⟨hd1, hd2⟩ := @moveDest_right sent.length (gb + 1)
      s0 gd (by omega) (by omega) hsz
      (by rcases hgd with h | h; exacts [Or.inl h, Or.inr (by omega)])
    simp only [moveBody]
    rw [hms]
    exact move_apply_right sent s0 (gb + 1)
      (moveDest sent.length true (gb + 1) s0 gd) (by omega) hd2
  · intro sent gb s0 gd hsz hgb hs0 hgd
    have hms : moveStart false s0 = s0 + 1 := rfl
    have hd3 := @moveDest_left sent.length (gb + 1)
      (s0 + 1) gd (by omega) hgd
    simp only [moveBody]
    rw [hms]
    exact move_apply_left sent (s0 + 1) (gb + 1)
      (moveDest sent.length false (gb + 1) (s0 + 1) gd) (by omega) (by omega)

theorem C6_move_witness :
    2 ≤ mvSent.length ∧ 1 + 1 ≤ mvSent.length - 1 ∧ 1 + (1 + 1) < mvSent.length
    ∧ (1 + (1 + 1) = mvSent.length - 1 ∨ 1 + (1 + 1) + (1 + 1) ≤ mvSent.length)
    ∧ applyStep mvSent (moveBody mvSent true 1 1 1)
      = mvSent.take 1
        ++ (mvSent.take (moveDest mvSent.length true (1 + 1) 1 1)).drop (1 + (1 + 1))
        ++ (mvSent.drop 1).take (1 + 1)
        ++ mvSent.drop (moveDest mvSent.length true (1 + 1) 1 1) := by
  refine ⟨by decide, by decide, by decide, Or.inr (by decide), ?_⟩
  exact C6_move.2.1 mvSent 1 1 1 (by decide) (by decide) (by decide)
    (Or.inr (by decide))

/-- C7: the swap direction is right whenever phrase1 is 0, left whenever
phrase1 is size - 1, and otherwise the flipped coin; the emitted step is
exactly the two modifications against the pre-swap indices, replacing the
single-phrase range at phrase1 with the content at phrase2 and the
single-phrase range at phrase2 with the content at phrase1. -/
theorem C7_swap : ∀ (sent : PhraseSegmentation) (p1 : Nat) (coin : Bool) (gd : Nat),
    2 ≤ sent.length → p1 < sent.length →
    gd + 1 ≤ (if swapDir sent.length p1 coin then sent.length - p1 - 1 else p1) →
    (p1 = 0 → swapDir sent.length p1 coin = true)
    ∧ (p1 = sent.length - 1 → swapDir sent.length p1 coin = false)
    ∧ (p1 ≠ 0 → p1 ≠ sent.length - 1 → swapDir sent.length p1 coin = coin)
    ∧ swapBody sent p1 coin gd
      = [⟨p1, p1 + 1, p1, p1 + 1,
          [sent.getD (swapP2 sent.length p1 coin gd) dAPP]⟩,
         ⟨swapP2 sent.length p1 coin gd, swapP2 sent.length p1 coin gd + 1,
          swapP2 sent.length p1 coin gd, swapP2 sent.length p1 coin gd + 1,
          [sent.getD p1 dAPP]⟩] := by
  intro sent p1 coin gd hsz hp1 hgd
  refine ⟨?_, ?_, ?_, ?_⟩
  · intro h0
    unfold swapDir
    rw [if_pos h0]
  · intro hl
    unfold swapDir
    rw [if_neg (by omega), if_pos hl]
  · intro h0 hl
    unfold swapDir
    rw [if_neg h0, if_neg hl]
  · have hp2 : swapP2 sent.length p1 coin gd < sent.length := by
      cases hdir : swapDir sent.length p1 coin with
      | true =>
        rw [hdir, if_pos rfl] at hgd
        exact (swapP2_right hdir hsz hp1 hgd).2
      | false =>
        rw [hdir, if_neg (by simp)] at hgd
        exact Nat.lt_trans (swapP2_left hdir hp1 hgd) hp1
    simp only [swapBody]
    rw [slice_one sent p1 hp1, slice_one sent _ hp2]

theorem C7_swap_witness :
    2 ≤ exSent2.length ∧ 0 < exSent2.length
    ∧ 0 + 1 ≤ (if swapDir exSent2.length 0 true then exSent2.length - 0 - 1 else 0)
    ∧ swapBody exSent2 0 true 0
      = [⟨0, 0 + 1, 0, 0 + 1, [exSent2.getD (swapP2 exSent2.length 0 true 0) dAPP]⟩,
         ⟨swapP2 exSent2.length 0 true 0, swapP2 exSent2.length 0 true 0 + 1,
          swapP2 exSent2.length 0 true 0, swapP2 exSent2.length 0 true 0 + 1,
          [exSent2.getD 0 dAPP]⟩] := by
  refine ⟨by decide, by decide, by decide, ?_⟩
  exact (C7_swap exSent2 0 true 0 (by decide) (by decide) (by decide)).2.2.2

/-- C8: ChangePhraseTranslation returns no proposal exactly when the
proposed pair equals the selected pair, and otherwise emits the single
modification replacing the one-phrase range at ph with the singleton new
pair. -/
theorem C8_change : ∀ (sent : PhraseSegmentation) (ph : Nat)
    (pp : AnchoredPhrasePair), ph < sent.length →
    (changePhraseTranslation sent ph pp = none ↔ sent.getD ph dAPP = pp)
    ∧ (sent.getD ph dAPP ≠ pp →
      changePhraseTranslation sent ph pp
        = some [⟨ph, ph + 1, ph, ph + 1, [pp]⟩]) := by
  intro sent ph pp hph
  have hh : (sent.drop ph).head? = some (sent.getD ph dAPP) := by
    rw [List.head?_drop, List.getD_eq_getElem?_getD, List.getElem?_eq_getElem hph]
    rfl
  unfold changePhraseTranslation
  rw [hh]
  dsimp only
  by_cases he : sent.getD ph dAPP = pp
  · rw [if_pos he]
    exact ⟨⟨fun _ => he, fun _ => rfl⟩, fun hne => absurd he hne⟩
  · rw [if_neg he]
    exact ⟨⟨fun h => absurd h (by simp), fun h => absurd h he⟩, fun _ => rfl⟩

theorem C8_change_witness :
    0 < exSent2.length
    ∧ exSent2.getD 0 dAPP ≠ exPP
    ∧ changePhraseTranslation exSent2 0 exPP
      = some [⟨0, 0 + 1, 0, 0 + 1, [exPP]⟩] := by
  refine ⟨by decide, by decide, ?_⟩
  exact (C8_change exSent2 0 exPP (by decide)).2 (by decide)

/-- C9: under the draw-range contracts of MovePhrases, the computed
destination always lies within 0 and size, so the assertion on dest never
fails; for right moves dest is at least start + block + 1 (with dest = size
in the boundary case), and for left moves dest is at most start - 1. -/
theorem C9_move_dest : ∀ (size : Nat) (dirc : Bool) (gb s0 gd : Nat),
    2 ≤ size → gb + 1 ≤ size - 1 → s0 + (gb + 1) < size →
    (if dirc
      then moveStart dirc s0 + (gb + 1) = size - 1
        ∨ moveStart dirc s0 + (gb + 1) + (gd + 1) ≤ size
      else moveStart dirc s0 = 1 ∨ gd + 1 ≤ moveStart dirc s0) →
    moveDest size dirc (gb + 1) (moveStart dirc s0) gd ≤ size
    ∧ (dirc = true → moveStart dirc s0 + (gb + 1) + 1
        ≤ moveDest size dirc (gb + 1) (moveStart dirc s0) gd)
    ∧ (dirc = false → moveDest size dirc (gb + 1) (moveStart dirc s0) gd + 1
        ≤ moveStart dirc s0) := by
  intro size dirc gb s0 gd hsz hgb hs0 hgd
  cases dirc with
  | true =>
    rw [if_pos rfl] at hgd
    have hms : moveStart true s0 = s0 := rfl
    rw [hms] at hgd ⊢
    obtain ⟨hd1, hd2⟩ := @moveDest_right size (gb + 1)
      s0 gd (by omega) (by omega) hsz
      (by rcases hgd with h | h; exacts [Or.inl h, Or.inr (by omega)])
    exact ⟨hd2, fun _ => hd1, fun h => absurd h (by simp)⟩
  | false =>
    rw [if_neg (by simp)] at hgd
    have hms : moveStart false s0 = s0 + 1 := rfl
    rw [hms] at hgd ⊢
    have hd3 := @moveDest_left size (gb + 1)
      (s0 + 1) gd (by omega) hgd
    exact ⟨by omega, fun h => absurd h (by simp), fun _ => hd3⟩

theorem C9_move_dest_witness :
    2 ≤ 5 ∧ 1 + 1 ≤ 5 - 1 ∧ 1 + (1 + 1) < 5
    ∧ moveDest 5 true (1 + 1) (moveStart true 1) 1 ≤ 5
    ∧ moveStart true 1 + (1 + 1) + 1 ≤ moveDest 5 true (1 + 1) (moveStart true 1) 1 := by
  have h := C9_move_dest 5 true 1 1 1 (by decide) (by decide) (by decide) (by decide)
  exact ⟨by decide, by decide, by decide, h.1, h.2.1 rfl⟩

/-- C10: in every SwapPhrases step, phrase2 is distinct from phrase1 and
lies within the segmentation; the boundary cases pick the single adjacent
cell; and the two emitted modifications target the two disjoint
single-phrase ranges at phrase1 and phrase2. -/
theorem C10_swap_targets : ∀ (sent : PhraseSegmentation) (p1 : Nat)
    (coin : Bool) (gd : Nat),
    2 ≤ sent.length → p1 < sent.length →
    gd + 1 ≤ (if swapDir sent.length p1 coin then sent.length - p1 - 1 else p1) →
    swapP2 sent.length p1 coin gd ≠ p1
    ∧ swapP2 sent.length p1 coin gd < sent.length
    ∧ (swapDir sent.length p1 coin = true → p1 = sent.length - 2 →
      swapP2 sent.length p1 coin gd = sent.length - 1)
    ∧ (swapDir sent.length p1 coin = false → p1 = 1 →
      swapP2 sent.length p1 coin gd = 0)
    ∧ (swapBody sent p1 coin gd).map Modification.fromPos
        = [p1, swapP2 sent.length p1 coin gd]
    ∧ (p1 + 1 ≤ swapP2 sent.length p1 coin gd
        ∨ swapP2 sent.length p1 coin gd + 1 ≤ p1) := by
  intro sent p1 coin gd hsz hp1 hgd
  cases hdir : swapDir sent.length p1 coin with
  | true =>
    rw [hdir, if_pos rfl] at hgd
    obtain ⟨h1, h2⟩ := swapP2_right hdir hsz hp1 hgd
    refine ⟨by omega, h2, ?_, ?_, ?_, Or.inl (by omega)⟩
    · intro _ he
      unfold swapP2
      rw [hdir, if_pos rfl, if_pos he]
    · intro hf
      exact absurd hf (by simp)
    · simp [swapBody]
  | false =>
    rw [hdir, if_neg (by simp)] at hgd
    have h3 := swapP2_left hdir hp1 hgd
    refine ⟨by omega, Nat.lt_trans h3 hp1, ?_, ?_, ?_, Or.inr (by omega)⟩
    · intro hf
      exact absurd hf (by simp)
    · intro _ he
      unfold swapP2
      rw [hdir, if_neg (by simp), if_pos he]
    · simp [swapBody]

theorem C10_swap_targets_witness :
    2 ≤ exSent2.length ∧ 0 < exSent2.length
    ∧ 0 + 1 ≤ (if swapDir exSent2.length 0 true then exSent2.length - 0 - 1 else 0)
    ∧ swapP2 exSent2.length 0 true 0 ≠ 0
    ∧ swapP2 exSent2.length 0 true 0 < exSent2.length
    ∧ (swapBody exSent2 0 true 0).map Modification.fromPos
        = [0, swapP2 exSent2.length 0 true 0] := by
  have h := C10_swap_targets exSent2 0 true 0 (by decide) (by decide) (by decide)
  exact ⟨by decide, by decide, by decide, h.1, h.2.1, h.2.2.2.2.1⟩
